import Mathlib

/-!
Verification development for the EasyStreamNrf24 framing protocol
(files `EasyStreamNrf24.py` and `crc.py`).

Modelling conventions (shallow embedding):
* Python strings / byte strings are modelled uniformly as `List Char`
  (the source mixes `bytes` and `str` freely; the protocol logic only
  depends on the character/byte sequence, with `ord c = c.toNat`).
* Python's unbounded integers are `Nat`; the source masks with
  `& 0xffff` where 16-bit wrap-around matters, which we translate as
  `&&& 0xffff`.
* Python exceptions (e.g. `int('', 16)` raising `ValueError`) are
  modelled with `Option` / an explicit `raised` outcome: `none` means
  the Python code raises instead of returning.
* `int(s, 16)` is modelled on plain hexadecimal-digit strings
  (`[0-9a-fA-F]+`); Python additionally tolerates signs, whitespace,
  `0x` prefixes and underscores, but every theorem below only applies
  it to plain hex-digit fields, where the two agree, or to inputs on
  which both fail (the empty string, or a field holding the character
  `z`, which no tolerated form contains).
* The radio is abstracted, as in the spec's Transport Adapter: a
  receive cycle is driven by the finite list of raw frames that are
  read before the inactivity timeout fires; exhausting the list is the
  timeout.
-/

namespace EasyStream

/-! ## crc.py -/

def CRC_POLYNOMIAL : Nat := 0x1021

def CRC_PRESET : Nat := 0x1D0F

/-- One iteration of the inner loop of `_initial` in crc.py: the state is
the pair `(crc, c)`; both are shifted left, and the polynomial is folded
in when bit 15 of `crc ^ c` is set. -/
def initialStep (p : Nat × Nat) : Nat × Nat :=
  if (p.1 ^^^ p.2) &&& 0x8000 ≠ 0 then ((p.1 <<< 1) ^^^ CRC_POLYNOMIAL, p.2 <<< 1)
  else (p.1 <<< 1, p.2 <<< 1)

/-- `_initial(c)` from crc.py: eight iterations starting from
`crc = 0`, `c = c << 8`. -/
def initialCrc (c : Nat) : Nat := (initialStep^[8] (0, c <<< 8)).1

/-- `_crcTable = [_initial(i) for i in range(256)]` from crc.py. -/
def crcTable : List Nat := (List.range 256).map initialCrc

/-- `_update_crc(crc, c)` from crc.py. -/
def updateCrc (crcIn c : Nat) : Nat :=
  let cc := 0xff &&& c
  let tmp := (crcIn >>> 8) ^^^ cc
  let crc2 := (crcIn <<< 8) ^^^ crcTable.getD (tmp &&& 0xff) 0
  crc2 &&& 0xffff

/-- `crc(strIn)` from crc.py: fold `_update_crc` over the characters,
starting from the preset `0x1D0F`. -/
def crc (s : List Char) : Nat := s.foldl (fun a ch => updateCrc a ch.toNat) CRC_PRESET

/-! ## Hexadecimal rendering (`b'%0Nx' % n`) and parsing (`int(s, 16)`) -/

/-- Lowercase hexadecimal digit character for `n < 16`, as produced by
Python's `%x` formatting. -/
def hexChar (n : Nat) : Char := if n < 10 then Char.ofNat (48 + n) else Char.ofNat (87 + n)

/-- Hex digits of `n`, most significant first; empty for `0`.  The
fuel argument (any value `≥ n` works, see `toHexRecAux_congr`) makes
the recursion structural so that the kernel can evaluate it. -/
def toHexRecAux : Nat → Nat → List Char
  | 0, _ => []
  | fuel + 1, n => if n = 0 then [] else toHexRecAux fuel (n / 16) ++ [hexChar (n % 16)]

def toHexRec (n : Nat) : List Char := toHexRecAux n n

/-- Python `'%x' % n`: minimal hex rendering, `"0"` for zero. -/
def natToHex (n : Nat) : List Char := if n = 0 then ['0'] else toHexRec n

/-- Python `'%0wx' % n`: hex rendering left-padded with `'0'` to width
`w`; longer than `w` when `n` does not fit (never truncated). -/
def toHexPad (w n : Nat) : List Char :=
  List.replicate (w - (natToHex n).length) '0' ++ natToHex n

/-- Value of one hexadecimal digit character, or `none`. -/
def hexDigit? (c : Char) : Option Nat :=
  if '0' ≤ c ∧ c ≤ '9' then some (c.toNat - 48)
  else if 'a' ≤ c ∧ c ≤ 'f' then some (c.toNat - 87)
  else if 'A' ≤ c ∧ c ≤ 'F' then some (c.toNat - 55)
  else none

def hexParseAux : Nat → List Char → Option Nat
  | acc, [] => some acc
  | acc, c :: rest =>
    match hexDigit? c with
    | none => none
    | some d => hexParseAux (16 * acc + d) rest

/-- `int(s, 16)` restricted to its plain-hex-digit domain: `some` with
the same value on `[0-9a-fA-F]+`, `none` (a `ValueError` in Python)
otherwise.  Python's `int` also accepts whitespace/sign-decorated forms
that this model maps to `none`, so theorems use `hexParse? _ = some _`
only as the faithful success condition, and `= none` only on inputs on
which Python raises as well. -/
def hexParse? (s : List Char) : Option Nat :=
  match s with
  | [] => none
  | _ :: _ => hexParseAux 0 s

/-! ## EasyStreamNrf24.py: packing -/

/-- `_specialFirstBinChars = b'c0ffee'`. -/
def specialFirstBinChars : List Char := ['c', '0', 'f', 'f', 'e', 'e']

/-- `_numBinChars = 2`. -/
def numBinChars : Nat := 2

/-- `dataWithHeader` built inside `packPayload`: marker, two placeholder
characters for the bin count, payload, 4-hex CRC of the payload. -/
def wrapped (dataIn : List Char) : List Char :=
  specialFirstBinChars ++ List.replicate numBinChars '_' ++ dataIn ++ toHexPad 4 (crc dataIn)

/-- The slicing `[dataWithHeader[i:i+binSize] for i in range(0, len, binSize)]`.
For `s = 0` Python raises (`range` step 0); that case is never exercised
by the theorems below (it needs `maxLen ≤ 2`).  The fuel argument (any
value `≥ l.length` works, see `chunksOfAux_congr`) makes the recursion
structural so that the kernel can evaluate it. -/
def chunksOfAux (s : Nat) : Nat → List Char → List (List Char)
  | 0, _ => []
  | fuel + 1, l => if s = 0 ∨ l = [] then [] else l.take s :: chunksOfAux s fuel (l.drop s)

def chunksOf (s : Nat) (l : List Char) : List (List Char) := chunksOfAux s l.length l

/-- `packPayload(dataIn, maxLen)` from EasyStreamNrf24.py.  The first
chunk gets the bin count spliced in over the placeholder characters and
its index `00` inserted at position 8; every later chunk is prefixed
with its 2-hex index.  (For `maxLen ≤ 2` the Python code raises; the
`[]` branch is unreachable for `maxLen ≥ 3` since `wrapped` is nonempty.) -/
def packPayload (dataIn : List Char) (maxLen : Nat) : List (List Char) :=
  let binSize := maxLen - numBinChars
  match chunksOf binSize (wrapped dataIn) with
  | [] => []
  | c0 :: rest =>
    let c0' := c0.take 6 ++ toHexPad 2 (rest.length + 1) ++ c0.drop 8
    let c0'' := c0'.take 8 ++ toHexPad 2 0 ++ c0'.drop 8
    c0'' :: rest.mapIdx fun i c => toHexPad 2 (i + 1) ++ c

/-! ## EasyStreamNrf24.py: parsing one frame -/

/-- `unpackPayloadBin(binData)`: returns `(payloadContent, binIdxVal, numBins)`;
`none` when Python raises `ValueError` in `int(_, 16)`. -/
def unpackPayloadBin (binData : List Char) : Option (List Char × Nat × Option Nat) :=
  if specialFirstBinChars.isPrefixOf binData then
    match hexParse? ((binData.drop 6).take 2) with
    | none => none
    | some numBins =>
      match hexParse? ((binData.drop 8).take 2) with
      | none => none
      | some idx => some (binData.drop 10, idx, some numBins)
  else
    match hexParse? (binData.take 2) with
    | none => none
    | some idx => some (binData.drop 2, idx, none)

/-! ## EasyStreamNrf24.py: the receive cycle -/

/-- State of one receive cycle: `receivedPayloadBins` (modelled as an
association list kept sorted by strictly increasing key, which is the
key-to-value mapping of the Python dict; the final
`sorted(receivedPayloadBins.items())` is then the list itself) and
`numExpectedBins`. -/
structure RecvState where
  bins : List (Nat × List Char)
  numExpected : Option Nat
deriving DecidableEq, Repr

def RecvState.init : RecvState := ⟨[], none⟩

/-- Insert/overwrite one key in the sorted association list
(`receivedPayloadBins[binIdxVal] = payloadContent`). -/
def insertBin : List (Nat × List Char) → Nat → List Char → List (Nat × List Char)
  | [], k, v => [(k, v)]
  | (k', v') :: t, k, v =>
    if k < k' then (k, v) :: (k', v') :: t
    else if k = k' then (k, v) :: t
    else (k', v') :: insertBin t k v

/-- One loop-body step of `receivePayload` on a freshly read frame:
unpack it (`none` = the Python `ValueError` propagates), record the new
expected bin count if present, reset the buffer when the new count is
strictly below the current buffer size, then store the slice. -/
def processFrame (st : RecvState) (frame : List Char) : Option RecvState :=
  match unpackPayloadBin frame with
  | none => none
  | some (content, idx, numBins) =>
    let st1 : RecvState :=
      match numBins with
      | some n => ⟨if n < st.bins.length then [] else st.bins, some n⟩
      | none => st
    some ⟨insertBin st1.bins idx content, st1.numExpected⟩

/-- The `while len(receivedPayloadBins) is not numExpectedBins` test
(true = keep looping).  `len` is a small nonnegative int and the parsed
counts are ≤ 255, so CPython's `is` on interned small ints coincides
with equality, and `int is None` is false. -/
def loopCond (st : RecvState) : Bool :=
  match st.numExpected with
  | none => true
  | some n => st.bins.length ≠ n

/-- The receive loop over the frames that arrive before the inactivity
timeout.  Returns the state at loop exit and `true` when the loop was
left through its condition (completion), `false` when the frame supply
was exhausted (the timeout `break`). -/
def runLoop (st : RecvState) (frames : List (List Char)) : Option (RecvState × Bool) :=
  if loopCond st then
    match frames with
    | [] => some (st, false)
    | f :: rest =>
      match processFrame st f with
      | none => none
      | some st' => runLoop st' rest
  else some (st, true)

/-- The code after the loop in `receivePayload`: join the buffered
slices in ascending key order, split off the last 4 characters as the
transmitted CRC, recompute, and compare; `none` is `return None`. -/
def finalize (st : RecvState) : Option (List Char) :=
  let joined := (st.bins.map Prod.snd).flatten
  let payloadCrc := joined.drop (joined.length - 4)
  let totalPayload := joined.take (joined.length - 4)
  let calculatedCrc := toHexPad 4 (crc totalPayload)
  if payloadCrc = calculatedCrc then some totalPayload else none

/-- Result of one `receivePayload` call: the Python function either
raises (a `ValueError` escaping `unpackPayloadBin`), returns `None`, or
returns the reassembled payload string. -/
inductive RecvOutcome where
  | raised : RecvOutcome
  | retNone : RecvOutcome
  | retPayload : List Char → RecvOutcome
deriving DecidableEq, Repr

/-- `receivePayload`, as a function of the raw frames read before the
inactivity timeout. -/
def receivePayload (frames : List (List Char)) : RecvOutcome :=
  match runLoop RecvState.init frames with
  | none => .raised
  | some (st, _) =>
    match finalize st with
    | none => .retNone
    | some s => .retPayload s

/-! ## Derived views of the code, used to state and prove its properties -/

/-- Number of packets `packPayload p m` produces (the `len(splitPackets)`
written into the count field). -/
def frameCount (p : List Char) (m : Nat) : Nat :=
  (chunksOf (m - numBinChars) (wrapped p)).length

/-- The `k`-th raw chunk of the wrapped payload. -/
def chunkAt (p : List Char) (m k : Nat) : List Char :=
  ((wrapped p).drop ((m - numBinChars) * k)).take (m - numBinChars)

/-- The `k`-th frame emitted by `packPayload p m` (proved equal to the
code's output in `packPayload_eq` for count values that fit the 2-hex
field). -/
def frameOf (p : List Char) (m k : Nat) : List Char :=
  if k = 0 then
    specialFirstBinChars ++ toHexPad 2 (frameCount p m) ++ toHexPad 2 0 ++
      (chunkAt p m 0).drop 8
  else toHexPad 2 k ++ chunkAt p m k

/-- Keys of the buffer. -/
def binKeys (l : List (Nat × List Char)) : List Nat := l.map Prod.fst

/-- The buffer representation invariant: strictly increasing keys. -/
def SortedBins (l : List (Nat × List Char)) : Prop :=
  List.Pairwise (fun a b => a.1 < b.1) l

/-- Payload slice that ends up in the buffer for frame `k` of
`packPayload p m`. -/
def sliceOf (p : List Char) (m k : Nat) : List Char :=
  if k = 0 then (chunkAt p m 0).drop 8 else chunkAt p m k

/-- Invariant of the receive-cycle state while it is fed frames of
`packPayload p m` (in arbitrary order, possibly with extra well-keyed
entries already buffered). -/
def GoodSt (p : List Char) (m : Nat) (st : RecvState) : Prop :=
  SortedBins st.bins ∧
  (∀ kv ∈ st.bins, kv.1 < frameCount p m) ∧
  (st.numExpected = none ∨ st.numExpected = some (frameCount p m))

/-- The buffer after the first `kk` frames of `packPayload p m` have all
been stored. -/
def canonicalBinsUpTo (p : List Char) (m kk : Nat) : List (Nat × List Char) :=
  (List.range kk).map fun k => (k, sliceOf p m k)

/-- A 23-byte payload engineered so that the first of its two frames
self-validates: its slice ends in the checksum of its own first 18
bytes. -/
def payloadC5 : List Char :=
  List.replicate 18 'a' ++ toHexPad 4 (crc (List.replicate 18 'a')) ++ ['!']

/-- A 2304-byte payload with `crc payloadC7 = 0x1D0F` whose 193rd chunk
(at maxFrameSize 14) is `ffee05ab`, so its frame 192 is the 14-byte
string `c0ffee05ab1d0f`, which reparses as a marker frame. -/
def payloadC7 : List Char :=
  List.replicate 2292 'a' ++ ['z', 'z', Char.ofNat 224, Char.ofNat 248] ++
    ['f', 'f', 'e', 'e', '0', '5', 'a', 'b']

/-! ## Basic facts about the checksum engine -/

theorem updateCrc_lt (a c : Nat) : updateCrc a c < 65536 := by
  have h : ((a <<< 8) ^^^ crcTable.getD ((((a >>> 8) ^^^ (0xff &&& c))) &&& 0xff) 0) &&& 0xffff
      ≤ 0xffff := Nat.and_le_right
  simpa [updateCrc] using Nat.lt_succ_of_le h

theorem crc_foldl_lt (s : List Char) (a : Nat) (ha : a < 65536) :
    s.foldl (fun x ch => updateCrc x ch.toNat) a < 65536 := by
  induction s generalizing a with
  | nil => exact ha
  | cons c t ih => exact ih _ (updateCrc_lt _ _)

theorem crc_lt (s : List Char) : crc s < 65536 :=
  crc_foldl_lt s CRC_PRESET (by norm_num [CRC_PRESET])

/-! ## Facts about hexadecimal rendering and parsing -/

theorem toHexRecAux_congr : ∀ (f1 n f2 : Nat), n ≤ f1 → n ≤ f2 →
    toHexRecAux f1 n = toHexRecAux f2 n := by
  intro f1
  induction f1 with
  | zero =>
    intro n f2 h1 h2
    have hn : n = 0 := by omega
    subst hn
    cases f2 <;> simp [toHexRecAux]
  | succ f ih =>
    intro n f2 h1 h2
    by_cases hn : n = 0
    · subst hn
      cases f2 <;> simp [toHexRecAux]
    · obtain ⟨g, rfl⟩ : ∃ g, f2 = g + 1 := ⟨f2 - 1, by omega⟩
      simp only [toHexRecAux, if_neg hn]
      have hdiv : n / 16 < n := Nat.div_lt_self (Nat.pos_of_ne_zero hn) (by norm_num)
      congr 1
      exact ih _ _ (by omega) (by omega)

theorem toHexRec_unfold (n : Nat) :
    toHexRec n = if n = 0 then [] else toHexRec (n / 16) ++ [hexChar (n % 16)] := by
  by_cases hn : n = 0
  · subst hn; rfl
  · obtain ⟨g, rfl⟩ : ∃ g, n = g + 1 := ⟨n - 1, by omega⟩
    rw [if_neg hn]
    show toHexRecAux (g + 1) (g + 1) = _
    simp only [toHexRecAux, if_neg hn]
    have hdiv : (g + 1) / 16 < g + 1 := Nat.div_lt_self (by omega) (by norm_num)
    congr 1
    exact toHexRecAux_congr _ _ _ (by omega) (le_refl _)

theorem toHexRec_length_le : ∀ w n : Nat, n < 16 ^ w → (toHexRec n).length ≤ w := by
  intro w
  induction w with
  | zero =>
    intro n hn
    interval_cases n
    rw [toHexRec_unfold]
    simp
  | succ w ih =>
    intro n hn
    by_cases h0 : n = 0
    · subst h0; rw [toHexRec_unfold]; simp
    · rw [toHexRec_unfold]
      simp only [h0, if_false, List.length_append, List.length_cons, List.length_nil]
      have : n / 16 < 16 ^ w := by
        rw [Nat.div_lt_iff_lt_mul (by norm_num)]
        calc n < 16 ^ (w + 1) := hn
        _ = 16 ^ w * 16 := by ring
      have := ih (n / 16) this
      omega

theorem natToHex_length_pos (n : Nat) : 0 < (natToHex n).length := by
  unfold natToHex
  by_cases h0 : n = 0
  · simp [h0]
  · rw [if_neg h0, toHexRec_unfold]
    simp [h0]

theorem natToHex_length_le (w n : Nat) (hw : 1 ≤ w) (hn : n < 16 ^ w) :
    (natToHex n).length ≤ w := by
  unfold natToHex
  by_cases h0 : n = 0
  · simpa [h0] using hw
  · rw [if_neg h0]
    exact toHexRec_length_le w n hn

theorem toHexPad_length (w n : Nat) (hw : 1 ≤ w) (hn : n < 16 ^ w) :
    (toHexPad w n).length = w := by
  have h := natToHex_length_le w n hw hn
  simp only [toHexPad, List.length_append, List.length_replicate]
  omega

theorem crcHex_length (p : List Char) : (toHexPad 4 (crc p)).length = 4 :=
  toHexPad_length 4 (crc p) (by norm_num) (by have := crc_lt p; norm_num; omega)

theorem toHexPad_two (n : Nat) (hn : n < 256) :
    toHexPad 2 n = [hexChar (n / 16), hexChar (n % 16)] := by
  rcases Nat.lt_or_ge n 16 with h16 | h16
  · by_cases h0 : n = 0
    · subst h0; rfl
    · have hdiv : n / 16 = 0 := Nat.div_eq_of_lt h16
      have hmod : n % 16 = n := Nat.mod_eq_of_lt h16
      have hrec : toHexRec n = [hexChar n] := by
        rw [toHexRec_unfold]
        simp [h0, hdiv, hmod, toHexRec_unfold]
      simp [toHexPad, natToHex, h0, hrec, hdiv, hmod, hexChar]
  · have h0 : n ≠ 0 := by omega
    have hd0 : n / 16 ≠ 0 := by
      intro h
      have := Nat.div_eq_of_lt (show n < 16 by omega)
      omega
    have hdd : n / 16 / 16 = 0 := by
      have : n / 16 < 16 := by
        rw [Nat.div_lt_iff_lt_mul (by norm_num)]; omega
      exact Nat.div_eq_of_lt this
    have hdm : n / 16 % 16 = n / 16 := by
      have : n / 16 < 16 := by
        rw [Nat.div_lt_iff_lt_mul (by norm_num)]; omega
      exact Nat.mod_eq_of_lt this
    have hrec : toHexRec n = [hexChar (n / 16), hexChar (n % 16)] := by
      rw [toHexRec_unfold]
      simp only [h0, if_false]
      rw [toHexRec_unfold]
      simp only [hd0, if_false]
      rw [toHexRec_unfold]
      simp [hdd, hdm]
    simp [toHexPad, natToHex, h0, hrec]

theorem hexDigit_hexChar : ∀ d : Nat, d < 16 → hexDigit? (hexChar d) = some d := by decide

theorem hexChar_ne_c : ∀ d : Nat, d < 12 → hexChar d ≠ 'c' := by decide

theorem hexParse_toHexPad_two (n : Nat) (hn : n < 256) :
    hexParse? (toHexPad 2 n) = some n := by
  rw [toHexPad_two n hn]
  have hd : n / 16 < 16 := by
    rw [Nat.div_lt_iff_lt_mul (by norm_num)]; omega
  have hm : n % 16 < 16 := Nat.mod_lt _ (by norm_num)
  simp only [hexParse?, hexParseAux, hexDigit_hexChar _ hd, hexDigit_hexChar _ hm]
  congr 1
  omega

theorem toHexPad_two_inj (j k : Nat) (hj : j < 256) (hk : k < 256)
    (h : toHexPad 2 j = toHexPad 2 k) : j = k := by
  have h1 := hexParse_toHexPad_two j hj
  have h2 := hexParse_toHexPad_two k hk
  rw [h, h2] at h1
  exact (Option.some_inj.mp h1).symm

theorem toHexPad_two_length (n : Nat) (hn : n < 256) : (toHexPad 2 n).length = 2 := by
  rw [toHexPad_two n hn]; rfl

/-! ## Facts about the chunk slicing -/

theorem chunksOfAux_congr (s : Nat) : ∀ (f1 : Nat) (l : List Char) (f2 : Nat),
    l.length ≤ f1 → l.length ≤ f2 → chunksOfAux s f1 l = chunksOfAux s f2 l := by
  intro f1
  induction f1 with
  | zero =>
    intro l f2 h1 h2
    have hl : l = [] := by
      cases l
      · rfl
      · simp at h1
    subst hl
    cases f2 <;> simp [chunksOfAux]
  | succ f ih =>
    intro l f2 h1 h2
    by_cases hl : l = []
    · subst hl
      cases f2 <;> simp [chunksOfAux]
    · have hlpos : 1 ≤ l.length := List.length_pos.mpr hl
      obtain ⟨g, rfl⟩ : ∃ g, f2 = g + 1 := ⟨f2 - 1, by omega⟩
      by_cases hs : s = 0
      · simp [chunksOfAux, hs]
      · have hcond : ¬(s = 0 ∨ l = []) := by simp [hs, hl]
        have hspos : 1 ≤ s := Nat.pos_of_ne_zero hs
        simp only [chunksOfAux, if_neg hcond]
        congr 1
        exact ih _ _ (by rw [List.length_drop]; omega) (by rw [List.length_drop]; omega)

theorem chunksOf_nil (s : Nat) : chunksOf s [] = [] := rfl

theorem chunksOf_zero (l : List Char) : chunksOf 0 l = [] := by
  cases l <;> simp [chunksOf, chunksOfAux]

theorem chunksOf_cons (s : Nat) (l : List Char) (hs : s ≠ 0) (hl : l ≠ []) :
    chunksOf s l = l.take s :: chunksOf s (l.drop s) := by
  obtain ⟨t, ht⟩ : ∃ t, l.length = t + 1 := by
    have := List.length_pos.mpr hl
    exact ⟨l.length - 1, by omega⟩
  have hcond : ¬(s = 0 ∨ l = []) := by simp [hs, hl]
  have hspos : 1 ≤ s := Nat.pos_of_ne_zero hs
  show chunksOfAux s l.length l = _
  rw [ht]
  simp only [chunksOfAux, if_neg hcond]
  congr 1
  exact chunksOfAux_congr s t (l.drop s) (l.drop s).length
    (by rw [List.length_drop]; omega) (le_refl _)

theorem chunksOf_ne_nil (s : Nat) (l : List Char) (hs : s ≠ 0) (hl : l ≠ []) :
    chunksOf s l ≠ [] := by
  rw [chunksOf_cons s l hs hl]
  simp

theorem flatten_chunksOf (s : Nat) (l : List Char) (hs : s ≠ 0) :
    (chunksOf s l).flatten = l := by
  by_cases hl : l = []
  · subst hl; rw [chunksOf_nil]; rfl
  · rw [chunksOf_cons s l hs hl, List.flatten_cons, flatten_chunksOf s (l.drop s) hs,
      List.take_append_drop]
termination_by l.length
decreasing_by
  rw [List.length_drop]
  exact Nat.sub_lt (List.length_pos.mpr hl) (Nat.pos_of_ne_zero hs)

theorem length_chunksOf (s : Nat) (l : List Char) (hs : s ≠ 0) :
    (chunksOf s l).length = (l.length + s - 1) / s := by
  by_cases hl : l = []
  · subst hl
    rw [chunksOf_nil]
    simp [Nat.div_eq_of_lt (show s - 1 < s by omega)]
  · rw [chunksOf_cons s l hs hl, List.length_cons, length_chunksOf s (l.drop s) hs,
      List.length_drop]
    have hpos : 1 ≤ l.length := List.length_pos.mpr hl
    rcases le_or_lt s l.length with hsl | hsl
    · have h1 : l.length - s + s - 1 + s = l.length + s - 1 := by omega
      calc (l.length - s + s - 1) / s + 1 = (l.length - s + s - 1 + s) / s :=
            (Nat.add_div_right _ (Nat.pos_of_ne_zero hs)).symm
      _ = (l.length + s - 1) / s := by rw [h1]
    · have h1 : l.length - s = 0 := by omega
      have h2 : l.length + s - 1 = (l.length - 1) + s := by omega
      rw [h1, h2, Nat.add_div_right _ (Nat.pos_of_ne_zero hs),
        Nat.div_eq_of_lt (show l.length - 1 < s by omega),
        Nat.div_eq_of_lt (show 0 + s - 1 < s by omega)]
termination_by l.length
decreasing_by
  rw [List.length_drop]
  exact Nat.sub_lt (List.length_pos.mpr hl) (Nat.pos_of_ne_zero hs)

theorem chunksOf_map_range (s : Nat) (l : List Char) (hs : s ≠ 0) :
    chunksOf s l =
      (List.range (chunksOf s l).length).map (fun k => (l.drop (s * k)).take s) := by
  by_cases hl : l = []
  · subst hl; rw [chunksOf_nil]; rfl
  · rw [chunksOf_cons s l hs hl]
    have ih := chunksOf_map_range s (l.drop s) hs
    rw [List.length_cons, List.range_succ_eq_map, List.map_cons, List.map_map]
    congr 1
    conv_lhs => rw [ih]
    apply List.map_congr_left
    intro k _
    simp only [Function.comp_apply, List.drop_drop]
    congr 2
    simp [Nat.mul_succ, Nat.add_comm]
termination_by l.length
decreasing_by
  rw [List.length_drop]
  exact Nat.sub_lt (List.length_pos.mpr hl) (Nat.pos_of_ne_zero hs)

theorem length_le_of_mem_chunksOf (s : Nat) (l c : List Char) (hc : c ∈ chunksOf s l) :
    c.length ≤ s := by
  by_cases hs : s = 0
  · subst hs; rw [chunksOf_zero] at hc; simp at hc
  by_cases hl : l = []
  · subst hl; rw [chunksOf_nil] at hc; simp at hc
  rw [chunksOf_cons s l hs hl] at hc
  rcases List.mem_cons.mp hc with h | h
  · subst h
    simp
  · exact length_le_of_mem_chunksOf s (l.drop s) c h
termination_by l.length
decreasing_by
  rw [List.length_drop]
  exact Nat.sub_lt (List.length_pos.mpr hl) (Nat.pos_of_ne_zero hs)

theorem ne_nil_of_mem_chunksOf (s : Nat) (l c : List Char) (hc : c ∈ chunksOf s l) :
    c ≠ [] := by
  by_cases hs : s = 0
  · subst hs; rw [chunksOf_zero] at hc; simp at hc
  by_cases hl : l = []
  · subst hl; rw [chunksOf_nil] at hc; simp at hc
  rw [chunksOf_cons s l hs hl] at hc
  rcases List.mem_cons.mp hc with h | h
  · subst h
    simp only [ne_eq, List.take_eq_nil_iff]
    push_neg
    exact ⟨hs, hl⟩
  · exact ne_nil_of_mem_chunksOf s (l.drop s) c h
termination_by l.length
decreasing_by
  rw [List.length_drop]
  exact Nat.sub_lt (List.length_pos.mpr hl) (Nat.pos_of_ne_zero hs)

/-! ## Structure of the packed frame sequence -/

theorem wrapped_length (p : List Char) : (wrapped p).length = p.length + 12 := by
  have h1 : specialFirstBinChars.length = 6 := rfl
  have h2 : numBinChars = 2 := rfl
  simp only [wrapped, List.length_append, List.length_replicate, h1, h2, crcHex_length p]
  omega

theorem wrapped_ne_nil (p : List Char) : wrapped p ≠ [] := by
  intro h
  have := wrapped_length p
  rw [h] at this
  simp at this

theorem wrapped_take_six (p : List Char) : (wrapped p).take 6 = specialFirstBinChars := rfl

theorem wrapped_drop_eight (p : List Char) :
    (wrapped p).drop 8 = p ++ toHexPad 4 (crc p) := rfl

theorem frameCount_pos (p : List Char) (m : Nat) (hm : 3 ≤ m) : 0 < frameCount p m := by
  have hs : m - numBinChars ≠ 0 := by simp only [numBinChars]; omega
  have h := chunksOf_ne_nil (m - numBinChars) (wrapped p) hs (wrapped_ne_nil p)
  unfold frameCount
  exact List.length_pos.mpr h

theorem frameCount_eq (p : List Char) (m : Nat) (hm : 3 ≤ m) :
    frameCount p m = (p.length + 12 + (m - numBinChars) - 1) / (m - numBinChars) := by
  unfold frameCount
  rw [length_chunksOf _ _ (by simp only [numBinChars]; omega), wrapped_length]

theorem chunksOf_wrapped_eq (p : List Char) (m : Nat) (hm : 3 ≤ m) :
    chunksOf (m - numBinChars) (wrapped p) =
      (List.range (frameCount p m)).map (chunkAt p m) := by
  have hs : m - numBinChars ≠ 0 := by simp only [numBinChars]; omega
  exact chunksOf_map_range (m - numBinChars) (wrapped p) hs

theorem chunkAt_zero (p : List Char) (m : Nat) :
    chunkAt p m 0 = (wrapped p).take (m - numBinChars) := by
  simp [chunkAt]

theorem packPayload_of_chunks_cons (p : List Char) (m : Nat) (c0 : List Char)
    (rest : List (List Char))
    (hc : chunksOf (m - numBinChars) (wrapped p) = c0 :: rest) :
    packPayload p m =
      ((c0.take 6 ++ toHexPad 2 (rest.length + 1) ++ c0.drop 8).take 8 ++ toHexPad 2 0 ++
        (c0.take 6 ++ toHexPad 2 (rest.length + 1) ++ c0.drop 8).drop 8) ::
      rest.mapIdx (fun i c => toHexPad 2 (i + 1) ++ c) := by
  simp only [packPayload]
  rw [hc]

theorem mapIdx_map_range {α β : Type} :
    ∀ (n : Nat) (g : Nat → α) (f : Nat → α → β),
      ((List.range n).map g).mapIdx f = (List.range n).map (fun i => f i (g i)) := by
  intro n
  induction n with
  | zero => intro g f; rfl
  | succ n ih =>
    intro g f
    rw [List.range_succ_eq_map, List.map_cons, List.mapIdx_cons, List.map_cons,
      List.map_map, List.map_map, ih]
    rfl

theorem packPayload_eq (p : List Char) (m : Nat) (hm : 8 ≤ m)
    (hN : frameCount p m ≤ 255) :
    packPayload p m = (List.range (frameCount p m)).map (frameOf p m) := by
  have hs : m - numBinChars ≠ 0 := by simp only [numBinChars]; omega
  have hw : wrapped p ≠ [] := wrapped_ne_nil p
  have hc := chunksOf_cons (m - numBinChars) (wrapped p) hs hw
  have hNdef : frameCount p m =
      (chunksOf (m - numBinChars) ((wrapped p).drop (m - numBinChars))).length + 1 := by
    unfold frameCount
    rw [hc, List.length_cons]
  have hrest : chunksOf (m - numBinChars) ((wrapped p).drop (m - numBinChars)) =
      (List.range (frameCount p m - 1)).map (fun j => chunkAt p m (j + 1)) := by
    have h := chunksOf_wrapped_eq p m (by omega)
    rw [hc, show frameCount p m = (frameCount p m - 1) + 1 by omega,
      List.range_succ_eq_map, List.map_cons, List.map_map] at h
    rw [(List.cons_eq_cons.mp h).2]
    apply List.map_congr_left
    intro j _
    rfl
  rw [packPayload_of_chunks_cons p m _ _ hc]
  have hlenrest : (chunksOf (m - numBinChars) ((wrapped p).drop (m - numBinChars))).length + 1 =
      frameCount p m := hNdef.symm
  rw [hlenrest]
  have hN' : frameCount p m < 256 := by omega
  have hNlen : (toHexPad 2 (frameCount p m)).length = 2 := toHexPad_two_length _ hN'
  have hc0take : ((wrapped p).take (m - numBinChars)).take 6 = specialFirstBinChars := by
    rw [List.take_take, Nat.min_def,
      if_pos (by simp only [numBinChars]; omega : 6 ≤ m - numBinChars)]
    exact wrapped_take_six p
  have hheadlen : (specialFirstBinChars ++ toHexPad 2 (frameCount p m)).length = 8 := by
    simp [specialFirstBinChars, hNlen]
  have hRHS : (List.range (frameCount p m)).map (frameOf p m) =
      frameOf p m 0 :: (List.range (frameCount p m - 1)).map (fun j => frameOf p m (j + 1)) := by
    conv_lhs => rw [show frameCount p m = (frameCount p m - 1) + 1 by omega,
      List.range_succ_eq_map]
    rw [List.map_cons, List.map_map]
    congr 1
  rw [hRHS, hc0take, List.append_assoc specialFirstBinChars,
    ← List.append_assoc specialFirstBinChars, List.take_left' hheadlen,
    List.drop_left' hheadlen]
  congr 1
  rw [hrest, mapIdx_map_range]
  apply List.map_congr_left
  intro j _
  rw [frameOf, if_neg (Nat.succ_ne_zero j)]

/-! ## Parsing the produced frames -/

theorem marker_isPrefixOf_append (l : List Char) :
    specialFirstBinChars.isPrefixOf (specialFirstBinChars ++ l) = true := by
  simp [specialFirstBinChars, List.isPrefixOf_cons₂]

theorem marker_not_prefixOf_pad2 (k : Nat) (hk : k < 192) (r : List Char) :
    specialFirstBinChars.isPrefixOf (toHexPad 2 k ++ r) = false := by
  have hk' : k < 256 := by omega
  have hd : k / 16 < 12 := by
    rw [Nat.div_lt_iff_lt_mul (by norm_num)]
    omega
  have hne : hexChar (k / 16) ≠ 'c' := hexChar_ne_c _ hd
  have hb : ('c' == hexChar (k / 16)) = false := beq_eq_false_iff_ne.mpr (Ne.symm hne)
  rw [toHexPad_two k hk']
  simp [specialFirstBinChars, List.isPrefixOf_cons₂, hb]

theorem unpack_marker_frame (numBinsF idxF content : List Char) (numBins idx : Nat)
    (hn : numBinsF.length = 2) (hi : idxF.length = 2)
    (hpn : hexParse? numBinsF = some numBins) (hpi : hexParse? idxF = some idx) :
    unpackPayloadBin (specialFirstBinChars ++ numBinsF ++ idxF ++ content) =
      some (content, idx, some numBins) := by
  have h6 : (8 : Nat) = (specialFirstBinChars ++ numBinsF).length := by
    simp [specialFirstBinChars, hn]
  have h10 : (10 : Nat) = (specialFirstBinChars ++ numBinsF ++ idxF).length := by
    simp [specialFirstBinChars, hn, hi]
  have hassoc : specialFirstBinChars ++ numBinsF ++ idxF ++ content =
      specialFirstBinChars ++ (numBinsF ++ (idxF ++ content)) := by
    simp [List.append_assoc]
  have hpre : specialFirstBinChars.isPrefixOf
      (specialFirstBinChars ++ numBinsF ++ idxF ++ content) = true := by
    rw [hassoc]
    exact marker_isPrefixOf_append _
  have hdrop6 : (specialFirstBinChars ++ numBinsF ++ idxF ++ content).drop 6 =
      numBinsF ++ (idxF ++ content) := by
    rw [hassoc]
    exact List.drop_left' rfl
  have hdrop8 : (specialFirstBinChars ++ numBinsF ++ idxF ++ content).drop 8 =
      idxF ++ content := by
    rw [List.append_assoc (specialFirstBinChars ++ numBinsF), h6]
    exact List.drop_left _ _
  have hdrop10 : (specialFirstBinChars ++ numBinsF ++ idxF ++ content).drop 10 = content := by
    rw [h10]
    exact List.drop_left _ _
  unfold unpackPayloadBin
  rw [hpre, if_pos rfl, hdrop6, hdrop8, hdrop10, List.take_left' hn,
    List.take_left' hi, hpn, hpi]

theorem unpack_plain_frame (idxF content : List Char) (idx : Nat)
    (hi : idxF.length = 2)
    (hnp : specialFirstBinChars.isPrefixOf (idxF ++ content) = false)
    (hpi : hexParse? idxF = some idx) :
    unpackPayloadBin (idxF ++ content) = some (content, idx, none) := by
  unfold unpackPayloadBin
  rw [hnp]
  simp only [Bool.false_eq_true, if_false]
  rw [List.take_left' hi, hpi, List.drop_left' hi]

theorem unpack_frameOf_zero (p : List Char) (m : Nat) (_hm : 8 ≤ m)
    (hN : frameCount p m ≤ 255) :
    unpackPayloadBin (frameOf p m 0) =
      some ((chunkAt p m 0).drop 8, 0, some (frameCount p m)) := by
  have h0 : frameOf p m 0 =
      specialFirstBinChars ++ toHexPad 2 (frameCount p m) ++ toHexPad 2 0 ++
        (chunkAt p m 0).drop 8 := by
    rw [frameOf, if_pos rfl]
  rw [h0]
  exact unpack_marker_frame _ _ _ _ _ (toHexPad_two_length _ (by omega)) rfl
    (hexParse_toHexPad_two _ (by omega)) rfl

theorem unpack_frameOf_pos (p : List Char) (m k : Nat) (hk0 : k ≠ 0) (hk : k < 192) :
    unpackPayloadBin (frameOf p m k) = some (chunkAt p m k, k, none) := by
  have hkk : frameOf p m k = toHexPad 2 k ++ chunkAt p m k := by
    rw [frameOf, if_neg hk0]
  rw [hkk]
  exact unpack_plain_frame _ _ _ (toHexPad_two_length _ (by omega))
    (marker_not_prefixOf_pad2 k hk _) (hexParse_toHexPad_two _ (by omega))

theorem frameOf_inj (p : List Char) (m j k : Nat) (hj : j < 192) (hk : k < 192)
    (h : frameOf p m j = frameOf p m k) : j = k := by
  by_cases hj0 : j = 0 <;> by_cases hk0 : k = 0
  · rw [hj0, hk0]
  · exfalso
    rw [hj0] at h
    have h1 := unpack_frameOf_pos p m k hk0 hk
    rw [← h] at h1
    have hpre : specialFirstBinChars.isPrefixOf (frameOf p m 0) = true := by
      rw [frameOf, if_pos rfl, List.append_assoc specialFirstBinChars,
        List.append_assoc specialFirstBinChars]
      exact marker_isPrefixOf_append _
    unfold unpackPayloadBin at h1
    rw [hpre, if_pos rfl] at h1
    rcases hcase : hexParse? ((frameOf p m 0).drop 6 |>.take 2) with _ | v
    · rw [hcase] at h1; exact Option.noConfusion h1
    · rw [hcase] at h1
      rcases hcase2 : hexParse? ((frameOf p m 0).drop 8 |>.take 2) with _ | w
      · rw [hcase2] at h1; exact Option.noConfusion h1
      · rw [hcase2] at h1
        simp at h1
  · exfalso
    rw [hk0] at h
    have h1 := unpack_frameOf_pos p m j hj0 hj
    rw [h] at h1
    have hpre : specialFirstBinChars.isPrefixOf (frameOf p m 0) = true := by
      rw [frameOf, if_pos rfl, List.append_assoc specialFirstBinChars,
        List.append_assoc specialFirstBinChars]
      exact marker_isPrefixOf_append _
    unfold unpackPayloadBin at h1
    rw [hpre, if_pos rfl] at h1
    rcases hcase : hexParse? ((frameOf p m 0).drop 6 |>.take 2) with _ | v
    · rw [hcase] at h1; exact Option.noConfusion h1
    · rw [hcase] at h1
      rcases hcase2 : hexParse? ((frameOf p m 0).drop 8 |>.take 2) with _ | w
      · rw [hcase2] at h1; exact Option.noConfusion h1
      · rw [hcase2] at h1
        simp at h1
  · have h1 := unpack_frameOf_pos p m j hj0 hj
    have h2 := unpack_frameOf_pos p m k hk0 hk
    rw [h, h2] at h1
    simp at h1
    exact h1.2.symm

/-! ## The reassembly buffer -/

theorem sortedBins_nil : SortedBins [] := List.Pairwise.nil

theorem sortedBins_cons_iff (a : Nat × List Char) (t : List (Nat × List Char)) :
    SortedBins (a :: t) ↔ (∀ b ∈ t, a.1 < b.1) ∧ SortedBins t := by
  unfold SortedBins
  exact List.pairwise_cons

theorem mem_binKeys (l : List (Nat × List Char)) (j : Nat) :
    j ∈ binKeys l ↔ ∃ w, (j, w) ∈ l := by
  unfold binKeys
  rw [List.mem_map]
  constructor
  · rintro ⟨⟨a, b⟩, hm, h⟩
    subst h
    exact ⟨b, hm⟩
  · rintro ⟨w, hw⟩
    exact ⟨(j, w), hw, rfl⟩

theorem binKeys_insertBin (l : List (Nat × List Char)) (k : Nat) (v : List Char) (j : Nat) :
    j ∈ binKeys (insertBin l k v) ↔ j = k ∨ j ∈ binKeys l := by
  induction l with
  | nil => simp [insertBin, binKeys]
  | cons a t ih =>
    obtain ⟨k', v'⟩ := a
    unfold insertBin
    rcases lt_trichotomy k k' with h | h | h
    · rw [if_pos h]
      simp [binKeys]
    · rw [if_neg (by omega), if_pos h]
      subst h
      simp [binKeys]
    · rw [if_neg (by omega), if_neg (by omega)]
      simp only [binKeys, List.map_cons, List.mem_cons] at ih ⊢
      rw [ih]
      tauto

theorem sortedBins_insertBin (l : List (Nat × List Char)) (k : Nat) (v : List Char)
    (hs : SortedBins l) : SortedBins (insertBin l k v) := by
  induction l with
  | nil => simp [insertBin, SortedBins]
  | cons a t ih =>
    obtain ⟨k', v'⟩ := a
    rw [sortedBins_cons_iff] at hs
    obtain ⟨hhead, htail⟩ := hs
    unfold insertBin
    rcases lt_trichotomy k k' with h | h | h
    · rw [if_pos h, sortedBins_cons_iff]
      refine ⟨?_, (sortedBins_cons_iff _ _).mpr ⟨hhead, htail⟩⟩
      intro b hb
      rcases List.mem_cons.mp hb with hb | hb
      · rw [hb]; exact h
      · exact h.trans (hhead b hb)
    · rw [if_neg (by omega), if_pos h, sortedBins_cons_iff]
      subst h
      exact ⟨hhead, htail⟩
    · rw [if_neg (by omega), if_neg (by omega), sortedBins_cons_iff]
      refine ⟨?_, ih htail⟩
      intro b hb
      have hbk : b.1 ∈ binKeys (insertBin t k v) := by
        rw [mem_binKeys]
        exact ⟨b.2, hb⟩
      rcases (binKeys_insertBin t k v b.1).mp hbk with hb1 | hb1
      · omega
      · rw [mem_binKeys] at hb1
        obtain ⟨w, hw⟩ := hb1
        have := hhead (b.1, w) hw
        exact this

theorem mem_insertBin (l : List (Nat × List Char)) (k : Nat) (v : List Char)
    (hs : SortedBins l) (j : Nat) (w : List Char) :
    (j, w) ∈ insertBin l k v ↔ (j = k ∧ w = v) ∨ ((j, w) ∈ l ∧ j ≠ k) := by
  induction l with
  | nil => simp [insertBin]
  | cons a t ih =>
    obtain ⟨k', v'⟩ := a
    rw [sortedBins_cons_iff] at hs
    obtain ⟨hhead, htail⟩ := hs
    unfold insertBin
    rcases lt_trichotomy k k' with h | h | h
    · rw [if_pos h]
      simp only [List.mem_cons, Prod.mk.injEq]
      constructor
      · rintro (⟨h1, h2⟩ | hrest)
        · exact Or.inl ⟨h1, h2⟩
        · refine Or.inr ⟨hrest, ?_⟩
          rcases hrest with heq | hmem
          · obtain ⟨h1, -⟩ := heq
            omega
          · have := hhead (j, w) hmem
            simp only at this
            omega
      · rintro (⟨h1, h2⟩ | ⟨hmem, _⟩)
        · exact Or.inl ⟨h1, h2⟩
        · exact Or.inr (by simpa using hmem)
    · rw [if_neg (by omega), if_pos h]
      subst h
      simp only [List.mem_cons, Prod.mk.injEq]
      constructor
      · rintro (⟨h1, h2⟩ | hmem)
        · exact Or.inl ⟨h1, h2⟩
        · refine Or.inr ⟨Or.inr hmem, ?_⟩
          have := hhead (j, w) hmem
          simp only at this
          omega
      · rintro (⟨h1, h2⟩ | ⟨hmem, hne⟩)
        · exact Or.inl ⟨h1, h2⟩
        · rcases hmem with heq | hmem
          · exact absurd heq.1 hne
          · exact Or.inr hmem
    · rw [if_neg (by omega), if_neg (by omega)]
      simp only [List.mem_cons, Prod.mk.injEq]
      rw [ih htail]
      constructor
      · rintro (heq | h2)
        · refine Or.inr ⟨Or.inl heq, ?_⟩
          obtain ⟨h1, -⟩ := heq
          omega
        · tauto
      · rintro (⟨h1, h2⟩ | ⟨hmem, hne⟩)
        · exact Or.inr (Or.inl ⟨h1, h2⟩)
        · rcases hmem with heq | hmem
          · exact Or.inl heq
          · exact Or.inr (Or.inr ⟨hmem, hne⟩)

theorem length_insertBin (l : List (Nat × List Char)) (k : Nat) (v : List Char)
    (hs : SortedBins l) :
    (insertBin l k v).length = if k ∈ binKeys l then l.length else l.length + 1 := by
  induction l with
  | nil => simp [insertBin, binKeys]
  | cons a t ih =>
    obtain ⟨k', v'⟩ := a
    rw [sortedBins_cons_iff] at hs
    obtain ⟨hhead, htail⟩ := hs
    unfold insertBin
    rcases lt_trichotomy k k' with h | h | h
    · rw [if_pos h]
      have hnot : k ∉ binKeys ((k', v') :: t) := by
        simp only [binKeys, List.map_cons, List.mem_cons]
        push_neg
        constructor
        · omega
        · intro hmem
          rw [show (t.map Prod.fst) = binKeys t from rfl, mem_binKeys] at hmem
          obtain ⟨w, hw⟩ := hmem
          have := hhead (k, w) hw
          simp only at this
          omega
      rw [if_neg hnot]
      simp
    · rw [if_neg (by omega), if_pos h]
      subst h
      have hin : k ∈ binKeys ((k, v') :: t) := by
        simp [binKeys]
      rw [if_pos hin]
      simp
    · rw [if_neg (by omega), if_neg (by omega)]
      simp only [List.length_cons, ih htail]
      by_cases hkt : k ∈ binKeys t
      · have hin : k ∈ binKeys ((k', v') :: t) := by
          show k ∈ k' :: binKeys t
          exact List.mem_cons_of_mem _ hkt
        rw [if_pos hkt, if_pos hin]
      · have hout : k ∉ binKeys ((k', v') :: t) := by
          show ¬(k ∈ k' :: binKeys t)
          intro hc
          rcases List.mem_cons.mp hc with hc | hc
          · omega
          · exact hkt hc
        rw [if_neg hkt, if_neg hout]

theorem length_insertBin_ge (l : List (Nat × List Char)) (k : Nat) (v : List Char) :
    l.length ≤ (insertBin l k v).length := by
  induction l with
  | nil => simp [insertBin]
  | cons a t ih =>
    obtain ⟨k', v'⟩ := a
    unfold insertBin
    rcases lt_trichotomy k k' with h | h | h
    · rw [if_pos h]
      simp
    · rw [if_neg (by omega), if_pos h]
      simp
    · rw [if_neg (by omega), if_neg (by omega)]
      simp only [List.length_cons]
      omega

theorem binKeys_nodup (l : List (Nat × List Char)) (hs : SortedBins l) :
    (binKeys l).Nodup := by
  unfold binKeys
  have : List.Pairwise (fun a b : Nat => a < b) (l.map Prod.fst) := by
    rw [List.pairwise_map]
    exact hs
  exact this.imp Nat.ne_of_lt

theorem length_le_of_keys_lt (l : List (Nat × List Char)) (N : Nat)
    (hs : SortedBins l) (hk : ∀ kv ∈ l, kv.1 < N) : l.length ≤ N := by
  have hnd : (binKeys l).Nodup := binKeys_nodup l hs
  have hsub : (binKeys l).toFinset ⊆ Finset.range N := by
    intro j hj
    rw [List.mem_toFinset, mem_binKeys] at hj
    obtain ⟨w, hw⟩ := hj
    rw [Finset.mem_range]
    exact hk (j, w) hw
  have hcard := Finset.card_le_card hsub
  rw [List.toFinset_card_of_nodup hnd, Finset.card_range] at hcard
  simpa [binKeys] using hcard

theorem keys_all_of_length_eq (l : List (Nat × List Char)) (N : Nat)
    (hs : SortedBins l) (hk : ∀ kv ∈ l, kv.1 < N) (hlen : l.length = N) :
    ∀ j, j < N → j ∈ binKeys l := by
  have hnd : (binKeys l).Nodup := binKeys_nodup l hs
  have hsub : (binKeys l).toFinset ⊆ Finset.range N := by
    intro j hj
    rw [List.mem_toFinset, mem_binKeys] at hj
    obtain ⟨w, hw⟩ := hj
    rw [Finset.mem_range]
    exact hk (j, w) hw
  have hcard : (Finset.range N).card ≤ (binKeys l).toFinset.card := by
    rw [List.toFinset_card_of_nodup hnd, Finset.card_range]
    simp [binKeys, hlen]
  have := Finset.eq_of_subset_of_card_le hsub hcard
  intro j hj
  have : j ∈ (binKeys l).toFinset := by
    rw [this]
    exact Finset.mem_range.mpr hj
  exact List.mem_toFinset.mp this


/-! ## The receive cycle on frames of one transfer (maxFrameSize 32) -/


theorem goodSt_init (p : List Char) (m : Nat) : GoodSt p m RecvState.init := by
  refine ⟨sortedBins_nil, ?_, Or.inl rfl⟩
  intro kv hkv
  simp [RecvState.init] at hkv

theorem sortedBins_value_unique (l : List (Nat × List Char)) (hs : SortedBins l)
    (j : Nat) (w w' : List Char) (h1 : (j, w) ∈ l) (h2 : (j, w') ∈ l) : w = w' := by
  induction l with
  | nil => simp at h1
  | cons a t ih =>
    rw [sortedBins_cons_iff] at hs
    obtain ⟨hhead, htail⟩ := hs
    rcases List.mem_cons.mp h1 with e1 | m1 <;> rcases List.mem_cons.mp h2 with e2 | m2
    · rw [← e1] at e2
      exact (congrArg Prod.snd e2).symm
    · exfalso
      have := hhead (j, w') m2
      rw [← e1] at this
      simp at this
    · exfalso
      have := hhead (j, w) m1
      rw [← e2] at this
      simp at this
    · exact ih htail m1 m2

theorem processFrame_frameOf (p : List Char) (m : Nat) (hm : 8 ≤ m)
    (hN : frameCount p m ≤ 255)
    (st : RecvState) (hG : GoodSt p m st) (k : Nat) (hk : k < frameCount p m)
    (hk192 : k < 192) :
    processFrame st (frameOf p m k) =
      some ⟨insertBin st.bins k (sliceOf p m k),
        if k = 0 then some (frameCount p m) else st.numExpected⟩ := by
  obtain ⟨hsort, hentries, hexp⟩ := hG
  by_cases hk0 : k = 0
  · subst hk0
    have hu := unpack_frameOf_zero p m hm hN
    unfold processFrame
    rw [hu]
    have hlen : st.bins.length ≤ frameCount p m :=
      length_le_of_keys_lt st.bins (frameCount p m) hsort fun kv hkv => hentries kv hkv
    have hnr : ¬(frameCount p m < st.bins.length) := by omega
    simp [if_neg hnr, sliceOf]
  · have hu := unpack_frameOf_pos p m k hk0 hk192
    unfold processFrame
    rw [hu]
    simp only [sliceOf, if_neg hk0]

theorem goodSt_insert (p : List Char) (m : Nat) (st : RecvState) (hG : GoodSt p m st)
    (k : Nat) (hk : k < frameCount p m) (v : List Char) :
    GoodSt p m ⟨insertBin st.bins k v,
      if k = 0 then some (frameCount p m) else st.numExpected⟩ := by
  obtain ⟨hsort, hentries, hexp⟩ := hG
  refine ⟨sortedBins_insertBin _ _ _ hsort, ?_, ?_⟩
  · intro kv hkv
    obtain ⟨j, w⟩ := kv
    rw [mem_insertBin _ _ _ hsort] at hkv
    rcases hkv with ⟨hj, hw⟩ | ⟨hmem, _⟩
    · subst hj
      exact hk
    · exact hentries _ hmem
  · by_cases hk0 : k = 0
    · rw [if_pos hk0]
      exact Or.inr rfl
    · rw [if_neg hk0]
      exact hexp

theorem runLoop_nil (st : RecvState) :
    runLoop st [] = some (st, !loopCond st) := by
  rw [runLoop.eq_def]
  by_cases hc : loopCond st
  · rw [if_pos hc, hc]
    rfl
  · rw [Bool.not_eq_true] at hc
    rw [hc]
    rfl

theorem runLoop_cons (st : RecvState) (f : List Char) (rest : List (List Char))
    (hc : loopCond st = true) (st1 : RecvState) (hp : processFrame st f = some st1) :
    runLoop st (f :: rest) = runLoop st1 rest := by
  rw [runLoop.eq_def, if_pos hc]
  show (match processFrame st f with
    | none => none
    | some st' => runLoop st' rest) = runLoop st1 rest
  rw [hp]

theorem runLoop_exit (st : RecvState) (frames : List (List Char))
    (hc : loopCond st = false) : runLoop st frames = some (st, true) := by
  rw [runLoop.eq_def, hc]
  simp

theorem loopCond_false_elim (p : List Char) (m : Nat) (st : RecvState)
    (hG : GoodSt p m st) (hc : loopCond st = false) :
    st.numExpected = some (frameCount p m) ∧ st.bins.length = frameCount p m := by
  obtain ⟨hsort, hentries, hexp⟩ := hG
  unfold loopCond at hc
  rcases hexp with hnone | hsome
  · rw [hnone] at hc
    exact absurd hc (by simp)
  · rw [hsome] at hc
    simp at hc
    exact ⟨hsome, hc⟩

/-- Main invariant lemma for the receive loop fed with frames of one
transfer: it never raises and never resets; keys grow exactly by the
delivered indices; the expected count, once learned or learnable, is
the real one; inserted values are the real slices; correct entries are
never corrupted; after a timeout exit every delivered index holds its
real slice. -/
theorem runLoop_spec (p : List Char) (m : Nat) (hm : 8 ≤ m) (hN : frameCount p m ≤ 255) :
    ∀ (d : List (List Char)) (st : RecvState),
      (∀ f ∈ d, ∃ k, k < frameCount p m ∧ k < 192 ∧ f = frameOf p m k) →
      GoodSt p m st →
      ∃ st' flag, runLoop st d = some (st', flag) ∧ GoodSt p m st' ∧
        (∀ j, j ∈ binKeys st'.bins →
          j ∈ binKeys st.bins ∨ (j < frameCount p m ∧ frameOf p m j ∈ d)) ∧
        (∀ j, j < 192 →
          (j ∈ binKeys st.bins ∨ (j < frameCount p m ∧ frameOf p m j ∈ d)) →
          j ∈ binKeys st'.bins) ∧
        (flag = true → st'.bins.length = frameCount p m) ∧
        ((st.numExpected = some (frameCount p m) ∨ frameOf p m 0 ∈ d) →
          st'.numExpected = some (frameCount p m)) ∧
        (∀ kv ∈ st'.bins, kv ∈ st.bins ∨ kv.2 = sliceOf p m kv.1) ∧
        (∀ j w, (j, w) ∈ st.bins → w = sliceOf p m j → (j, w) ∈ st'.bins) ∧
        (flag = false → ∀ j, j < frameCount p m → j < 192 → frameOf p m j ∈ d →
          (j, sliceOf p m j) ∈ st'.bins) := by
  intro d
  induction d with
  | nil =>
    intro st hmem hG
    refine ⟨st, !loopCond st, runLoop_nil st, hG, ?_, ?_, ?_, ?_, ?_, ?_, ?_⟩
    · intro j hj
      exact Or.inl hj
    · intro j _ hj
      rcases hj with hj | ⟨_, hj⟩
      · exact hj
      · simp at hj
    · intro hflag
      have hc : loopCond st = false := by
        cases hcc : loopCond st
        · rfl
        · rw [hcc] at hflag
          simp at hflag
      exact (loopCond_false_elim p m st hG hc).2
    · intro hexp2
      rcases hexp2 with h | h
      · exact h
      · simp at h
    · intro kv hkv
      exact Or.inl hkv
    · intro j w hj _
      exact hj
    · intro _ j _ _ hmem'
      simp at hmem'
  | cons f rest ih =>
    intro st hmem hG
    by_cases hc : loopCond st = true
    · obtain ⟨k, hk, hk192, hf⟩ := hmem f (List.mem_cons_self f rest)
      subst hf
      have hp := processFrame_frameOf p m hm hN st hG k hk hk192
      have hG1 := goodSt_insert p m st hG k hk (sliceOf p m k)
      obtain ⟨hsort, hentries, hexp⟩ := hG
      obtain ⟨st', flag, hrun, hG', hfwd, hbwd, hflag, hexpTrack, hvals, hpersist, hdeliv⟩ :=
        ih _ (fun g hg => hmem g (List.mem_cons_of_mem _ hg)) hG1
      refine ⟨st', flag, ?_, hG', ?_, ?_, hflag, ?_, ?_, ?_, ?_⟩
      · rw [runLoop_cons st _ rest hc _ hp]
        exact hrun
      · intro j hj
        rcases hfwd j hj with hj1 | ⟨hjN, hjrest⟩
        · simp only [binKeys_insertBin] at hj1
          rcases hj1 with hjk | hjst
          · subst hjk
            exact Or.inr ⟨hk, List.mem_cons_self _ _⟩
          · exact Or.inl hjst
        · exact Or.inr ⟨hjN, List.mem_cons_of_mem _ hjrest⟩
      · intro j hj192 hj
        apply hbwd j hj192
        simp only [binKeys_insertBin]
        rcases hj with hjst | ⟨hjN, hjmem⟩
        · exact Or.inl (Or.inr hjst)
        · rcases List.mem_cons.mp hjmem with heq | hmem'
          · have : j = k := frameOf_inj p m j k hj192 hk192 heq
            exact Or.inl (Or.inl this)
          · exact Or.inr ⟨hjN, hmem'⟩
      · intro hyp
        apply hexpTrack
        by_cases hk0 : k = 0
        · subst hk0
          rw [if_pos rfl]
          exact Or.inl rfl
        · rw [if_neg hk0]
          rcases hyp with h | h
          · exact Or.inl h
          · rcases List.mem_cons.mp h with heq | hmem'
            · exact absurd (frameOf_inj p m 0 k (by omega) hk192 heq) (Ne.symm hk0)
            · exact Or.inr hmem'
      · intro kv hkv
        rcases hvals kv hkv with hkv1 | hkv1
        · obtain ⟨j, w⟩ := kv
          rw [mem_insertBin _ _ _ hsort] at hkv1
          rcases hkv1 with ⟨hj, hw⟩ | ⟨hmem', _⟩
          · subst hj
            exact Or.inr hw
          · exact Or.inl hmem'
        · exact Or.inr hkv1
      · intro j w hjw hw
        apply hpersist j w _ hw
        rw [mem_insertBin _ _ _ hsort]
        by_cases hjk : j = k
        · subst hjk
          exact Or.inl ⟨rfl, by rw [hw]⟩
        · exact Or.inr ⟨hjw, hjk⟩
      · intro hfl j hjN hj192 hjmem
        rcases List.mem_cons.mp hjmem with heq | hmem'
        · have hjk : j = k := frameOf_inj p m j k hj192 hk192 heq
          subst hjk
          apply hpersist j (sliceOf p m j) _ rfl
          rw [mem_insertBin _ _ _ hsort]
          exact Or.inl ⟨rfl, rfl⟩
        · exact hdeliv hfl j hjN hj192 hmem'
    · rw [Bool.not_eq_true] at hc
      obtain ⟨hexpN, hlenN⟩ := loopCond_false_elim p m st hG hc
      have hsort := hG.1
      have hentries := hG.2.1
      refine ⟨st, true, runLoop_exit st _ hc, hG, ?_, ?_, ?_, ?_, ?_, ?_, ?_⟩
      · intro j hj
        exact Or.inl hj
      · intro j _ hj
        rcases hj with hj | ⟨hjN, _⟩
        · exact hj
        · exact keys_all_of_length_eq st.bins (frameCount p m) hsort
            (fun kv hkv => hentries kv hkv) hlenN j hjN
      · intro _
        exact hlenN
      · intro _
        exact hexpN
      · intro kv hkv
        exact Or.inl hkv
      · intro j w hj _
        exact hj
      · intro hfl
        exact absurd hfl (by simp)

/-! ## The fully collected buffer and the final checksum validation -/

theorem toFinset_list_range (n : Nat) : (List.range n).toFinset = Finset.range n := by
  ext j
  simp

theorem sortedBins_nodup (l : List (Nat × List Char)) (hs : SortedBins l) : l.Nodup :=
  hs.imp fun h => by
    intro heq
    rw [heq] at h
    omega

theorem bins_eq_canonicalUpTo (p : List Char) (m : Nat) (bins : List (Nat × List Char))
    (kk : Nat) (hsort : SortedBins bins)
    (hkeys : ∀ j, j ∈ binKeys bins ↔ j < kk)
    (hvals : ∀ kv ∈ bins, kv.2 = sliceOf p m kv.1) :
    bins = canonicalBinsUpTo p m kk := by
  have hsort2 : SortedBins (canonicalBinsUpTo p m kk) := by
    unfold SortedBins canonicalBinsUpTo
    rw [List.pairwise_map]
    exact (List.pairwise_lt_range _).imp fun h => h
  have hnd1 : bins.Nodup := sortedBins_nodup _ hsort
  have hnd2 : (canonicalBinsUpTo p m kk).Nodup := sortedBins_nodup _ hsort2
  have hmem : ∀ kv : Nat × List Char, kv ∈ bins ↔ kv ∈ canonicalBinsUpTo p m kk := by
    intro ⟨j, w⟩
    constructor
    · intro h
      have hv := hvals _ h
      have hjk : j < kk := by
        rw [← hkeys j, mem_binKeys]
        exact ⟨w, h⟩
      unfold canonicalBinsUpTo
      rw [List.mem_map]
      refine ⟨j, List.mem_range.mpr hjk, ?_⟩
      simp only [Prod.mk.injEq]
      exact ⟨trivial, hv.symm⟩
    · intro h
      unfold canonicalBinsUpTo at h
      rw [List.mem_map] at h
      obtain ⟨k, hkr, heq⟩ := h
      rw [List.mem_range] at hkr
      have h1 : k = j := congrArg Prod.fst heq
      have h2 : sliceOf p m k = w := congrArg Prod.snd heq
      subst h1
      have hj := (hkeys k).mpr hkr
      rw [mem_binKeys] at hj
      obtain ⟨w', hw'⟩ := hj
      have hw'' : w' = sliceOf p m k := hvals _ hw'
      rw [← h2, ← hw'']
      exact hw'
  have hperm : bins.Perm (canonicalBinsUpTo p m kk) :=
    (List.perm_ext_iff_of_nodup hnd1 hnd2).mpr hmem
  haveI : IsAntisymm (Nat × List Char) (fun a b => a.1 < b.1) :=
    ⟨fun a b h1 h2 => by omega⟩
  exact List.eq_of_perm_of_sorted hperm hsort hsort2

theorem flatten_slices_upTo (p : List Char) (m : Nat) (hm : 10 ≤ m) :
    ∀ kk, 1 ≤ kk →
      ((List.range kk).map (sliceOf p m)).flatten =
        ((wrapped p).drop 8).take ((m - numBinChars) * kk - 8) := by
  intro kk
  induction kk with
  | zero => omega
  | succ k ih =>
    intro _
    by_cases hk1 : k = 0
    · subst hk1
      show ([sliceOf p m 0]).flatten = _
      have : (m - numBinChars) * 1 = m - numBinChars := by ring
      rw [this]
      simp only [List.flatten_cons, List.flatten_nil, List.append_nil]
      rw [sliceOf, if_pos rfl, chunkAt_zero, List.drop_take]
    · have hk : 1 ≤ k := by omega
      have hstep := ih hk
      rw [List.range_succ, List.map_append, List.flatten_append, hstep]
      have hs8 : 8 ≤ m - numBinChars := by simp only [numBinChars]; omega
      have harith : (m - numBinChars) * (k + 1) - 8 =
          ((m - numBinChars) * k - 8) + (m - numBinChars) := by
        have h1 : 8 ≤ (m - numBinChars) * k := by
          calc 8 ≤ m - numBinChars := hs8
          _ = (m - numBinChars) * 1 := by ring
          _ ≤ (m - numBinChars) * k := Nat.mul_le_mul_left _ hk
        have h2 : (m - numBinChars) * (k + 1) = (m - numBinChars) * k + (m - numBinChars) := by
          ring
        omega
      rw [harith, List.take_add]
      congr 1
      simp only [List.map_cons, List.map_nil, List.flatten_cons, List.flatten_nil,
        List.append_nil]
      have h1 : 8 ≤ (m - numBinChars) * k := by
        calc 8 ≤ m - numBinChars := hs8
        _ = (m - numBinChars) * 1 := by ring
        _ ≤ (m - numBinChars) * k := Nat.mul_le_mul_left _ hk
      rw [List.drop_drop]
      have h8k : 8 + ((m - numBinChars) * k - 8) = (m - numBinChars) * k := by omega
      rw [h8k, sliceOf, if_neg hk1]
      rfl

theorem mul_frameCount_ge (p : List Char) (m : Nat) (hm : 3 ≤ m) :
    (wrapped p).length ≤ (m - numBinChars) * frameCount p m := by
  have hs : 0 < m - numBinChars := by simp only [numBinChars]; omega
  rw [frameCount_eq p m hm, wrapped_length]
  have h := @Nat.lt_div_mul_add (p.length + 12 + (m - numBinChars) - 1) (m - numBinChars) hs
  have hcomm : (p.length + 12 + (m - numBinChars) - 1) / (m - numBinChars) * (m - numBinChars) =
      (m - numBinChars) * ((p.length + 12 + (m - numBinChars) - 1) / (m - numBinChars)) := by
    ring
  omega

theorem flatten_canonical (p : List Char) (m : Nat) (hm : 10 ≤ m) :
    ((canonicalBinsUpTo p m (frameCount p m)).map Prod.snd).flatten =
      p ++ toHexPad 4 (crc p) := by
  have hNpos : 0 < frameCount p m := frameCount_pos p m (by omega)
  have hmap : (canonicalBinsUpTo p m (frameCount p m)).map Prod.snd =
      (List.range (frameCount p m)).map (sliceOf p m) := by
    unfold canonicalBinsUpTo
    rw [List.map_map]
    rfl
  rw [hmap, flatten_slices_upTo p m hm _ hNpos]
  have hlen : ((wrapped p).drop 8).length ≤ (m - numBinChars) * frameCount p m - 8 := by
    rw [List.length_drop]
    have := mul_frameCount_ge p m (by omega)
    omega
  rw [List.take_of_length_le hlen, wrapped_drop_eight]

theorem finalize_payload_crc (p : List Char) (st : RecvState)
    (hjoin : (st.bins.map Prod.snd).flatten = p ++ toHexPad 4 (crc p)) :
    finalize st = some p := by
  unfold finalize
  rw [hjoin]
  have hlen : (p ++ toHexPad 4 (crc p)).length = p.length + 4 := by
    simp [crcHex_length p]
  have hsub : p.length + 4 - 4 = p.length := by omega
  simp only [hlen, hsub, List.take_left, List.drop_left]
  simp

theorem receivePayload_eq_of_runLoop (d : List (List Char)) (st' : RecvState) (flag : Bool)
    (h : runLoop RecvState.init d = some (st', flag)) :
    receivePayload d = (match finalize st' with
      | none => RecvOutcome.retNone
      | some s => RecvOutcome.retPayload s) := by
  unfold receivePayload
  rw [h]

/-- Round trip through the receive cycle: delivering the complete frame
set of one transfer (at most 192 frames, maxFrameSize 32), in any
order, reconstructs the payload. -/
theorem receive_all_frames (p : List Char) (hlen : p.length ≤ 5748)
    (d : List (List Char)) (hperm : d.Perm (packPayload p 32)) :
    receivePayload d = RecvOutcome.retPayload p := by
  have hN : frameCount p 32 ≤ 192 := by
    rw [frameCount_eq p 32 (by norm_num)]
    simp only [numBinChars]
    omega
  have hpack := packPayload_eq p 32 (by norm_num) (by omega)
  have hmem : ∀ f ∈ d, ∃ k, k < frameCount p 32 ∧ k < 192 ∧ f = frameOf p 32 k := by
    intro f hf
    have : f ∈ packPayload p 32 := hperm.mem_iff.mp hf
    rw [hpack, List.mem_map] at this
    obtain ⟨k, hk, heq⟩ := this
    rw [List.mem_range] at hk
    exact ⟨k, hk, by omega, heq.symm⟩
  obtain ⟨st', flag, hrun, hG', hfwd, hbwd, -, -, hvals, -, -⟩ :=
    runLoop_spec p 32 (by norm_num) (by omega) d RecvState.init hmem (goodSt_init p 32)
  obtain ⟨hsort, -, -⟩ := hG'
  have hkeys : ∀ j, j ∈ binKeys st'.bins ↔ j < frameCount p 32 := by
    intro j
    constructor
    · intro hj
      rcases hfwd j hj with hj1 | ⟨hjN, -⟩
      · simp [RecvState.init, binKeys] at hj1
      · exact hjN
    · intro hj
      apply hbwd j (by omega)
      refine Or.inr ⟨hj, ?_⟩
      rw [hperm.mem_iff, hpack, List.mem_map]
      exact ⟨j, List.mem_range.mpr hj, rfl⟩
  have hvals2 : ∀ kv ∈ st'.bins, kv.2 = sliceOf p 32 kv.1 := by
    intro kv hkv
    rcases hvals kv hkv with h | h
    · simp [RecvState.init] at h
    · exact h
  have hbins := bins_eq_canonicalUpTo p 32 st'.bins (frameCount p 32) hsort hkeys hvals2
  have hfin : finalize st' = some p := by
    apply finalize_payload_crc
    rw [hbins]
    exact flatten_canonical p 32 (by norm_num)
  rw [receivePayload_eq_of_runLoop d st' flag hrun, hfin]

/-! ## Incomplete deliveries never reconstruct the full payload -/

theorem frameCount_thirty (p : List Char) :
    frameCount p 32 = (p.length + 41) / 30 := by
  rw [frameCount_eq p 32 (by norm_num)]
  simp only [numBinChars]
  norm_num

theorem sliceOf_length_pos (p : List Char) (k : Nat) (hk : k < frameCount p 32) :
    1 ≤ (sliceOf p 32 k).length := by
  have hN := frameCount_thirty p
  have hw := wrapped_length p
  by_cases hk0 : k = 0
  · subst hk0
    simp only [sliceOf, if_pos, chunkAt_zero, List.length_drop, List.length_take]
    simp only [numBinChars, hw]
    omega
  · simp only [sliceOf, if_neg hk0, chunkAt, List.length_take, List.length_drop]
    simp only [numBinChars, hw]
    have h30 : (32 - 2) * k < p.length + 12 := by
      have hk' : k ≤ frameCount p 32 - 1 := by omega
      omega
    omega

theorem joined_length_bound (p : List Char) (st : RecvState)
    (hsort : SortedBins st.bins)
    (hkeyslt : ∀ kv ∈ st.bins, kv.1 < frameCount p 32)
    (hvals : ∀ kv ∈ st.bins, kv.2 = sliceOf p 32 kv.1)
    (mIdx : Nat) (hm : mIdx < frameCount p 32) (hnot : mIdx ∉ binKeys st.bins) :
    ((st.bins.map Prod.snd).flatten).length + (sliceOf p 32 mIdx).length ≤ p.length + 4 := by
  set g : Nat → Nat := fun k => (sliceOf p 32 k).length with hg
  have htot : ((List.range (frameCount p 32)).map g).sum = p.length + 4 := by
    have h1 := congrArg List.length (flatten_canonical p 32 (by norm_num))
    rw [List.length_flatten] at h1
    have h3 : (List.map Prod.snd (canonicalBinsUpTo p 32 (frameCount p 32))).map List.length =
        (List.range (frameCount p 32)).map g := by
      unfold canonicalBinsUpTo
      rw [List.map_map, List.map_map]
      rfl
    rw [h3] at h1
    rw [h1]
    simp [crcHex_length]
  have hLHS : ((st.bins.map Prod.snd).flatten).length = ((binKeys st.bins).map g).sum := by
    rw [List.length_flatten, List.map_map]
    unfold binKeys
    rw [List.map_map]
    congr 1
    apply List.map_congr_left
    intro kv hkv
    simp only [Function.comp_apply, hg]
    rw [hvals kv hkv]
  have hnd := binKeys_nodup _ hsort
  have hsum1 : ((binKeys st.bins).map g).sum = (binKeys st.bins).toFinset.sum g :=
    (List.sum_toFinset _ hnd).symm
  have hsub : (binKeys st.bins).toFinset ⊆ (Finset.range (frameCount p 32)).erase mIdx := by
    intro j hj
    rw [List.mem_toFinset] at hj
    rw [Finset.mem_erase, Finset.mem_range]
    constructor
    · intro heq
      rw [heq] at hj
      exact hnot hj
    · rw [mem_binKeys] at hj
      obtain ⟨w, hw⟩ := hj
      exact hkeyslt _ hw
  have hmono : (binKeys st.bins).toFinset.sum g ≤
      ((Finset.range (frameCount p 32)).erase mIdx).sum g :=
    Finset.sum_le_sum_of_subset hsub
  have herase : ((Finset.range (frameCount p 32)).erase mIdx).sum g + g mIdx =
      (Finset.range (frameCount p 32)).sum g :=
    Finset.sum_erase_add _ _ (Finset.mem_range.mpr hm)
  have hrange : (Finset.range (frameCount p 32)).sum g =
      ((List.range (frameCount p 32)).map g).sum := by
    rw [← toFinset_list_range, List.sum_toFinset _ (List.nodup_range _)]
  have hgm : g mIdx = (sliceOf p 32 mIdx).length := rfl
  omega

theorem finalize_some_shape (st : RecvState) (q : List Char) (h : finalize st = some q) :
    4 ≤ ((st.bins.map Prod.snd).flatten).length ∧
    q.length = ((st.bins.map Prod.snd).flatten).length - 4 := by
  unfold finalize at h
  by_cases hc : ((st.bins.map Prod.snd).flatten).drop
      (((st.bins.map Prod.snd).flatten).length - 4) =
      toHexPad 4 (crc (((st.bins.map Prod.snd).flatten).take
        (((st.bins.map Prod.snd).flatten).length - 4)))
  · simp only [hc, if_pos] at h
    have hq : q = ((st.bins.map Prod.snd).flatten).take
        (((st.bins.map Prod.snd).flatten).length - 4) := (Option.some_inj.mp h).symm
    have hlen4 := congrArg List.length hc
    rw [List.length_drop, crcHex_length] at hlen4
    constructor
    · omega
    · rw [hq, List.length_take]
      omega
  · simp only [hc, if_neg] at h
    exact Option.noConfusion h

/-- When at least one frame of the transfer never arrives, the receive
cycle cannot return the complete original payload (whatever it returns
is `None` or strictly shorter). -/
theorem receive_missing_frame (p : List Char) (hlenp : p.length ≤ 5748)
    (d : List (List Char)) (hsub : ∀ f ∈ d, f ∈ packPayload p 32)
    (hmiss : ∃ f, f ∈ packPayload p 32 ∧ f ∉ d) :
    receivePayload d ≠ RecvOutcome.retPayload p := by
  have hN : frameCount p 32 ≤ 192 := by
    rw [frameCount_thirty]
    omega
  have hpack := packPayload_eq p 32 (by norm_num) (by omega)
  obtain ⟨fm, hfm, hfnot⟩ := hmiss
  rw [hpack, List.mem_map] at hfm
  obtain ⟨mIdx, hmr, heq⟩ := hfm
  rw [List.mem_range] at hmr
  have hmem : ∀ f ∈ d, ∃ k, k < frameCount p 32 ∧ k < 192 ∧ f = frameOf p 32 k := by
    intro f hf
    have := hsub f hf
    rw [hpack, List.mem_map] at this
    obtain ⟨k, hk, hkeq⟩ := this
    rw [List.mem_range] at hk
    exact ⟨k, hk, by omega, hkeq.symm⟩
  obtain ⟨st', flag, hrun, hG', hfwd, -, -, -, hvals, -, -⟩ :=
    runLoop_spec p 32 (by norm_num) (by omega) d RecvState.init hmem (goodSt_init p 32)
  obtain ⟨hsort, hkeyslt, -⟩ := hG'
  have hmnot : mIdx ∉ binKeys st'.bins := by
    intro hbad
    rcases hfwd mIdx hbad with hb | ⟨-, hmem'⟩
    · simp [RecvState.init, binKeys] at hb
    · rw [heq] at hmem'
      exact hfnot hmem'
  have hvals2 : ∀ kv ∈ st'.bins, kv.2 = sliceOf p 32 kv.1 := by
    intro kv hkv
    rcases hvals kv hkv with h | h
    · simp [RecvState.init] at h
    · exact h
  rw [receivePayload_eq_of_runLoop d st' flag hrun]
  rcases hfin : finalize st' with _ | q
  · intro hcon
    exact RecvOutcome.noConfusion hcon
  · obtain ⟨h4, hqlen⟩ := finalize_some_shape st' q hfin
    have hbound := joined_length_bound p st' hsort hkeyslt hvals2 mIdx hmr hmnot
    have hspos := sliceOf_length_pos p mIdx hmr
    intro hcon
    have hq : q = p := by
      have : RecvOutcome.retPayload q = RecvOutcome.retPayload p := hcon
      injection this
    rw [hq] at hqlen
    omega

/-! ## Splitting a receive run, and character facts about hex renderings -/

theorem runLoop_cons_none (st : RecvState) (f : List Char) (rest : List (List Char))
    (hc : loopCond st = true) (hp : processFrame st f = none) :
    runLoop st (f :: rest) = none := by
  rw [runLoop.eq_def, if_pos hc]
  show (match processFrame st f with
    | none => none
    | some st' => runLoop st' rest) = none
  rw [hp]

theorem runLoop_append (st : RecvState) (d1 d2 : List (List Char)) :
    runLoop st (d1 ++ d2) =
      (match runLoop st d1 with
        | none => none
        | some (st', true) => some (st', true)
        | some (st', false) => runLoop st' d2) := by
  induction d1 generalizing st with
  | nil =>
    simp only [List.nil_append]
    rw [runLoop_nil]
    cases hc : loopCond st
    · exact runLoop_exit st d2 hc
    · rfl
  | cons f rest ih =>
    by_cases hc : loopCond st = true
    · cases hp : processFrame st f with
      | none =>
        rw [List.cons_append, runLoop_cons_none st f _ hc hp,
          runLoop_cons_none st f rest hc hp]
      | some st1 =>
        rw [List.cons_append, runLoop_cons st f _ hc st1 hp,
          runLoop_cons st f rest hc st1 hp, ih]
    · rw [Bool.not_eq_true] at hc
      rw [runLoop_exit st _ hc, runLoop_exit st _ hc]

theorem bins_length_of_keys_iff (bins : List (Nat × List Char)) (kk : Nat)
    (hsort : SortedBins bins) (hiff : ∀ j, j ∈ binKeys bins ↔ j < kk) :
    bins.length = kk := by
  have hnd := binKeys_nodup _ hsort
  have hset : (binKeys bins).toFinset = Finset.range kk := by
    ext j
    rw [List.mem_toFinset, Finset.mem_range]
    exact hiff j
  have hcard := congrArg Finset.card hset
  rw [List.toFinset_card_of_nodup hnd, Finset.card_range] at hcard
  simpa [binKeys] using hcard

theorem mem_toHexRecAux (fuel : Nat) :
    ∀ n c, c ∈ toHexRecAux fuel n → ∃ d, d < 16 ∧ c = hexChar d := by
  induction fuel with
  | zero =>
    intro n c hc
    simp [toHexRecAux] at hc
  | succ f ih =>
    intro n c hc
    by_cases hn : n = 0
    · simp [toHexRecAux, hn] at hc
    · simp only [toHexRecAux, if_neg hn, List.mem_append, List.mem_singleton] at hc
      rcases hc with hc | hc
      · exact ih _ _ hc
      · exact ⟨n % 16, Nat.mod_lt _ (by norm_num), hc⟩

theorem mem_toHexPad (w n : Nat) (c : Char) (hc : c ∈ toHexPad w n) :
    c = '0' ∨ ∃ d, d < 16 ∧ c = hexChar d := by
  unfold toHexPad at hc
  rcases List.mem_append.mp hc with hc | hc
  · exact Or.inl (List.eq_of_mem_replicate hc)
  · unfold natToHex at hc
    by_cases hn : n = 0
    · rw [if_pos hn] at hc
      exact Or.inl (List.mem_singleton.mp hc)
    · rw [if_neg hn] at hc
      exact Or.inr (mem_toHexRecAux n n c hc)

theorem hexChar_ne_z : ∀ d : Nat, d < 16 → hexChar d ≠ 'z' := by decide

theorem toHexPad_ne_z_head (w n : Nat) (r : List Char) :
    'z' :: r ≠ toHexPad w n := by
  intro h
  have hz : 'z' ∈ toHexPad w n := by
    rw [← h]
    exact List.mem_cons_self _ _
  rcases mem_toHexPad w n 'z' hz with hz' | ⟨d, hd, hz'⟩
  · exact absurd hz' (by decide)
  · exact absurd hz'.symm (hexChar_ne_z d hd)

theorem chunkAt_length_full (p : List Char) (m k : Nat)
    (h : (m - numBinChars) * (k + 1) ≤ (wrapped p).length) :
    (chunkAt p m k).length = m - numBinChars := by
  unfold chunkAt
  rw [List.length_take, List.length_drop]
  have h2 : (m - numBinChars) * (k + 1) = (m - numBinChars) * k + (m - numBinChars) := by
    ring
  omega

/-! ## The `payloadC7` pathology: a data frame that reparses as a marker frame -/

set_option maxRecDepth 100000

theorem payloadC7_assoc : payloadC7 =
    List.replicate 2292 'a' ++ (['z', 'z', Char.ofNat 224, Char.ofNat 248] ++
      ['f', 'f', 'e', 'e', '0', '5', 'a', 'b']) := by
  unfold payloadC7
  rw [List.append_assoc]

set_option maxHeartbeats 2000000 in
theorem crc_payloadC7 : crc payloadC7 = 7439 := by
  have c1 : (List.replicate 500 'a').foldl (fun a ch => updateCrc a ch.toNat) CRC_PRESET
      = 49470 := by decide
  have c2 : (List.replicate 500 'a').foldl (fun a ch => updateCrc a ch.toNat) 49470
      = 58003 := by decide
  have c3 : (List.replicate 500 'a').foldl (fun a ch => updateCrc a ch.toNat) 58003
      = 33269 := by decide
  have c4 : (List.replicate 500 'a').foldl (fun a ch => updateCrc a ch.toNat) 33269
      = 35740 := by decide
  have c5 : (List.replicate 292 'a').foldl (fun a ch => updateCrc a ch.toNat) 35740
      = 41265 := by decide
  have c6 : ((['z', 'z', Char.ofNat 224, Char.ofNat 248] ++
      ['f', 'f', 'e', 'e', '0', '5', 'a', 'b']).foldl
        (fun a ch => updateCrc a ch.toNat) 41265) = 7439 := by decide
  have d1 : (List.replicate 1000 'a').foldl (fun a ch => updateCrc a ch.toNat) CRC_PRESET
      = 58003 := by
    rw [show (1000 : Nat) = 500 + 500 from by norm_num, List.replicate_add,
      List.foldl_append, c1, c2]
  have d2 : (List.replicate 1500 'a').foldl (fun a ch => updateCrc a ch.toNat) CRC_PRESET
      = 33269 := by
    rw [show (1500 : Nat) = 1000 + 500 from by norm_num, List.replicate_add,
      List.foldl_append, d1, c3]
  have d3 : (List.replicate 2000 'a').foldl (fun a ch => updateCrc a ch.toNat) CRC_PRESET
      = 35740 := by
    rw [show (2000 : Nat) = 1500 + 500 from by norm_num, List.replicate_add,
      List.foldl_append, d2, c4]
  have d4 : (List.replicate 2292 'a').foldl (fun a ch => updateCrc a ch.toNat) CRC_PRESET
      = 41265 := by
    rw [show (2292 : Nat) = 2000 + 292 from by norm_num, List.replicate_add,
      List.foldl_append, d3, c5]
  show payloadC7.foldl (fun a ch => updateCrc a ch.toNat) CRC_PRESET = 7439
  rw [payloadC7_assoc, List.foldl_append, d4, c6]

theorem payloadC7_length : payloadC7.length = 2304 := by
  unfold payloadC7
  simp

theorem frameCount_C7 : frameCount payloadC7 14 = 193 := by
  rw [frameCount_eq payloadC7 14 (by norm_num), payloadC7_length]
  norm_num [numBinChars]

theorem wrapped_C7_drop : (wrapped payloadC7).drop 2304 =
    ['f', 'f', 'e', 'e', '0', '5', 'a', 'b'] ++ toHexPad 4 (crc payloadC7) := by
  rw [show (2304 : Nat) = 8 + 2296 from by norm_num, ← List.drop_drop,
    wrapped_drop_eight,
    List.drop_append_of_le_length (by rw [payloadC7_length]; norm_num)]
  congr 1

theorem chunkAt_C7_192 : chunkAt payloadC7 14 192 =
    ['f', 'f', 'e', 'e', '0', '5', 'a', 'b'] ++ toHexPad 4 (crc payloadC7) := by
  show ((wrapped payloadC7).drop 2304).take 12 = _
  rw [wrapped_C7_drop]
  exact List.take_of_length_le (by simp [crcHex_length])

theorem crcHex_C7 : toHexPad 4 (crc payloadC7) = ['1', 'd', '0', 'f'] := by
  rw [crc_payloadC7]
  decide

theorem frameOf_C7_192 : frameOf payloadC7 14 192 =
    ['c', '0', 'f', 'f', 'e', 'e', '0', '5', 'a', 'b', '1', 'd', '0', 'f'] := by
  rw [frameOf, if_neg (by norm_num : ¬(192 = 0)), chunkAt_C7_192, crcHex_C7]
  rfl

theorem frameOf_C7_ne (k : Nat) (hk : k < 192) :
    frameOf payloadC7 14 192 ≠ frameOf payloadC7 14 k := by
  intro h
  by_cases hk0 : k = 0
  · subst hk0
    have h8 : (frameOf payloadC7 14 192).take 8 = (frameOf payloadC7 14 0).take 8 := by
      rw [h]
    have h0 : (frameOf payloadC7 14 0).take 8 =
        specialFirstBinChars ++ toHexPad 2 (frameCount payloadC7 14) := by
      rw [frameOf, if_pos rfl,
        List.append_assoc (specialFirstBinChars ++ toHexPad 2 (frameCount payloadC7 14))]
      refine List.take_left' ?_
      rw [List.length_append,
        toHexPad_two_length _ (by rw [frameCount_C7]; norm_num)]
      rfl
    rw [frameOf_C7_192, h0, frameCount_C7] at h8
    exact absurd h8 (by decide)
  · have h2 : (frameOf payloadC7 14 192).take 2 = (frameOf payloadC7 14 k).take 2 := by
      rw [h]
    have hkf : (frameOf payloadC7 14 k).take 2 = toHexPad 2 k := by
      rw [frameOf, if_neg hk0]
      exact List.take_left' (toHexPad_two_length k (by omega))
    rw [frameOf_C7_192, hkf] at h2
    have h192 : toHexPad 2 (192 : Nat) = ['c', '0'] := by decide
    have : (192 : Nat) = k :=
      toHexPad_two_inj 192 k (by norm_num) (by omega) (by rw [h192, ← h2]; rfl)
    omega

theorem sliceOf_C7_171_ne : sliceOf payloadC7 14 171 ≠ ['1', 'd', '0', 'f'] := by
  intro h
  have hb : (14 - numBinChars) * (171 + 1) ≤ (wrapped payloadC7).length := by
    rw [wrapped_length, payloadC7_length]
    norm_num [numBinChars]
  have hl := congrArg List.length h
  rw [sliceOf, if_neg (by norm_num : ¬(171 = 0)),
    chunkAt_length_full payloadC7 14 171 hb] at hl
  norm_num [numBinChars] at hl

theorem processFrame_marker_reset (st : RecvState) (f content : List Char) (idx n : Nat)
    (hu : unpackPayloadBin f = some (content, idx, some n)) (hlt : n < st.bins.length) :
    processFrame st f = some ⟨insertBin [] idx content, some n⟩ := by
  unfold processFrame
  rw [hu]
  show some (RecvState.mk
    (insertBin (if n < st.bins.length then [] else st.bins) idx content) (some n)) = _
  rw [if_pos hlt]

theorem processFrame_marker_keep (st : RecvState) (f content : List Char) (idx n : Nat)
    (hu : unpackPayloadBin f = some (content, idx, some n)) (hge : ¬n < st.bins.length) :
    processFrame st f = some ⟨insertBin st.bins idx content, some n⟩ := by
  unfold processFrame
  rw [hu]
  show some (RecvState.mk
    (insertBin (if n < st.bins.length then [] else st.bins) idx content) (some n)) = _
  rw [if_neg hge]

theorem unpack_C7_192 : unpackPayloadBin (frameOf payloadC7 14 192) =
    some (['1', 'd', '0', 'f'], 171, some 5) := by
  rw [frameOf_C7_192]
  decide

theorem pack_C7 : packPayload payloadC7 14 =
    (List.range 192).map (frameOf payloadC7 14) ++ [frameOf payloadC7 14 192] := by
  rw [packPayload_eq payloadC7 14 (by norm_num) (by rw [frameCount_C7]; norm_num),
    frameCount_C7, show (193 : Nat) = 192 + 1 from rfl, List.range_succ,
    List.map_append, List.map_singleton]

theorem receive_inorder_C7 :
    receivePayload (packPayload payloadC7 14) = RecvOutcome.retPayload [] := by
  have hm : (8 : Nat) ≤ 14 := by norm_num
  have hN255 : frameCount payloadC7 14 ≤ 255 := by rw [frameCount_C7]; norm_num
  have hmem1 : ∀ f ∈ (List.range 192).map (frameOf payloadC7 14),
      ∃ k, k < frameCount payloadC7 14 ∧ k < 192 ∧ f = frameOf payloadC7 14 k := by
    intro f hf
    rw [List.mem_map] at hf
    obtain ⟨k, hk, rfl⟩ := hf
    rw [List.mem_range] at hk
    exact ⟨k, by rw [frameCount_C7]; omega, hk, rfl⟩
  obtain ⟨stA, flagA, hrunA, hGA, hfwdA, hbwdA, hflagA, hexpA, hvalsA, hpersA, hdelA⟩ :=
    runLoop_spec payloadC7 14 hm hN255 _ RecvState.init hmem1 (goodSt_init payloadC7 14)
  have hkeysA : ∀ j, j ∈ binKeys stA.bins → j < 192 := by
    intro j hj
    rcases hfwdA j hj with hj' | ⟨hjN, hjmem⟩
    · simp [RecvState.init, binKeys] at hj'
    · rw [List.mem_map] at hjmem
      obtain ⟨k, hk, hfk⟩ := hjmem
      rw [List.mem_range] at hk
      by_cases hj192 : j < 192
      · exact hj192
      · exfalso
        have hj2 : j = 192 := by rw [frameCount_C7] at hjN; omega
        subst hj2
        exact frameOf_C7_ne k hk hfk.symm
  have hkeysAlt : ∀ kv ∈ stA.bins, kv.1 < 192 := by
    intro kv hkv
    exact hkeysA kv.1 ((mem_binKeys _ _).mpr ⟨kv.2, hkv⟩)
  have hflagAfalse : flagA = false := by
    cases hfA : flagA
    · rfl
    · exfalso
      have hlen := hflagA hfA
      rw [frameCount_C7] at hlen
      have := length_le_of_keys_lt stA.bins 192 hGA.1 hkeysAlt
      omega
  have hlenA : stA.bins.length = 192 := by
    apply bins_length_of_keys_iff stA.bins 192 hGA.1
    intro j
    refine ⟨hkeysA j, fun hj => ?_⟩
    apply hbwdA j hj
    right
    exact ⟨by rw [frameCount_C7]; omega,
      List.mem_map.mpr ⟨j, List.mem_range.mpr hj, rfl⟩⟩
  have hexpA' : stA.numExpected = some 193 := by
    rw [← frameCount_C7]
    exact hexpA (Or.inr (List.mem_map.mpr ⟨0, List.mem_range.mpr (by norm_num), rfl⟩))
  have hcondA : loopCond stA = true := by
    unfold loopCond
    rw [hexpA']
    simp [hlenA]
  have hproc192 : processFrame stA (frameOf payloadC7 14 192) =
      some ⟨[(171, ['1', 'd', '0', 'f'])], some 5⟩ := by
    have h := processFrame_marker_reset stA _ _ _ _ unpack_C7_192
      (by rw [hlenA]; norm_num)
    exact h
  have hstep : runLoop RecvState.init (packPayload payloadC7 14) =
      some (⟨[(171, ['1', 'd', '0', 'f'])], some 5⟩, false) := by
    rw [pack_C7, runLoop_append, hrunA, hflagAfalse]
    show runLoop stA [frameOf payloadC7 14 192] = _
    rw [runLoop_cons stA _ [] hcondA _ hproc192, runLoop_nil]
    rfl
  have hfin : finalize (⟨[(171, ['1', 'd', '0', 'f'])], some 5⟩ : RecvState) =
      some [] := by decide
  rw [receivePayload_eq_of_runLoop _ _ _ hstep, hfin]

theorem receive_rotated_C7 :
    receivePayload ([frameOf payloadC7 14 192] ++
      (List.range 192).map (frameOf payloadC7 14)) = RecvOutcome.retNone := by
  have hm : (8 : Nat) ≤ 14 := by norm_num
  have hN255 : frameCount payloadC7 14 ≤ 255 := by rw [frameCount_C7]; norm_num
  have hcond0 : loopCond RecvState.init = true := rfl
  have hproc0 : processFrame RecvState.init (frameOf payloadC7 14 192) =
      some ⟨[(171, ['1', 'd', '0', 'f'])], some 5⟩ := by
    have h := processFrame_marker_keep RecvState.init _ _ _ _ unpack_C7_192
      (by simp [RecvState.init])
    exact h
  have hcondB : loopCond (⟨[(171, ['1', 'd', '0', 'f'])], some 5⟩ : RecvState) =
      true := rfl
  have hu0 := unpack_frameOf_zero payloadC7 14 hm hN255
  have hprocB : processFrame (⟨[(171, ['1', 'd', '0', 'f'])], some 5⟩ : RecvState)
      (frameOf payloadC7 14 0) =
      some ⟨[(0, sliceOf payloadC7 14 0), (171, ['1', 'd', '0', 'f'])], some 193⟩ := by
    have h := processFrame_marker_keep
      (⟨[(171, ['1', 'd', '0', 'f'])], some 5⟩ : RecvState) _ _ _ _ hu0
      (by rw [frameCount_C7]; norm_num)
    rw [frameCount_C7] at h
    exact h
  have hd1cons : (List.range 192).map (frameOf payloadC7 14) =
      frameOf payloadC7 14 0 ::
        (List.range 191).map (fun k => frameOf payloadC7 14 (k + 1)) := by
    rw [show (192 : Nat) = 191 + 1 from rfl, List.range_succ_eq_map, List.map_cons,
      List.map_map]
    rfl
  have hGc : GoodSt payloadC7 14
      (⟨[(0, sliceOf payloadC7 14 0), (171, ['1', 'd', '0', 'f'])], some 193⟩ :
        RecvState) := by
    refine ⟨?_, ?_, Or.inr ?_⟩
    · refine List.Pairwise.cons ?_ (List.pairwise_singleton _ _)
      intro b hb
      rw [List.mem_singleton] at hb
      rw [hb]
      norm_num
    · intro kv hkv
      rw [frameCount_C7]
      simp only [List.mem_cons, List.mem_singleton, List.not_mem_nil, or_false] at hkv
      rcases hkv with rfl | rfl
      · norm_num
      · norm_num
    · rw [frameCount_C7]
  have hmem3 : ∀ f ∈ (List.range 191).map (fun k => frameOf payloadC7 14 (k + 1)),
      ∃ k, k < frameCount payloadC7 14 ∧ k < 192 ∧ f = frameOf payloadC7 14 k := by
    intro f hf
    rw [List.mem_map] at hf
    obtain ⟨k, hk, rfl⟩ := hf
    rw [List.mem_range] at hk
    exact ⟨k + 1, by rw [frameCount_C7]; omega, by omega, rfl⟩
  obtain ⟨stD, flagD, hrunD, hGD, hfwdD, hbwdD, hflagD, hexpD, hvalsD, hpersD, hdelD⟩ :=
    runLoop_spec payloadC7 14 hm hN255 _ _ hmem3 hGc
  have hkeysD : ∀ j, j ∈ binKeys stD.bins ↔ j < 192 := by
    intro j
    constructor
    · intro hj
      rcases hfwdD j hj with hj' | ⟨hjN, hjmem⟩
      · simp [binKeys] at hj'
        rcases hj' with rfl | rfl
        · norm_num
        · norm_num
      · rw [List.mem_map] at hjmem
        obtain ⟨k, hk, hfk⟩ := hjmem
        rw [List.mem_range] at hk
        by_cases hj192 : j < 192
        · exact hj192
        · exfalso
          have hj2 : j = 192 := by rw [frameCount_C7] at hjN; omega
          subst hj2
          exact frameOf_C7_ne (k + 1) (by omega) hfk.symm
    · intro hj
      apply hbwdD j hj
      by_cases hj0 : j = 0
      · subst hj0
        left
        simp [binKeys]
      · by_cases hj171 : j = 171
        · subst hj171
          left
          simp [binKeys]
        · right
          refine ⟨by rw [frameCount_C7]; omega, ?_⟩
          rw [List.mem_map]
          refine ⟨j - 1, List.mem_range.mpr (by omega), ?_⟩
          exact congrArg (frameOf payloadC7 14) (by omega : j - 1 + 1 = j)
  have hkeysDlt : ∀ kv ∈ stD.bins, kv.1 < 192 := by
    intro kv hkv
    exact (hkeysD kv.1).mp ((mem_binKeys _ _).mpr ⟨kv.2, hkv⟩)
  have hflagDfalse : flagD = false := by
    cases hfD : flagD
    · rfl
    · exfalso
      have hlen := hflagD hfD
      rw [frameCount_C7] at hlen
      have := length_le_of_keys_lt stD.bins 192 hGD.1 hkeysDlt
      omega
  have hvalD : ∀ kv ∈ stD.bins, kv.2 = sliceOf payloadC7 14 kv.1 := by
    intro kv hkv
    rcases hvalsD kv hkv with hin | hval
    · simp only [List.mem_cons, List.mem_singleton, List.not_mem_nil, or_false] at hin
      rcases hin with rfl | rfl
      · rfl
      · exfalso
        have hdel171 : (171, sliceOf payloadC7 14 171) ∈ stD.bins := by
          apply hdelD hflagDfalse 171 (by rw [frameCount_C7]; norm_num) (by norm_num)
          rw [List.mem_map]
          exact ⟨170, List.mem_range.mpr (by norm_num), rfl⟩
        have heq := sortedBins_value_unique stD.bins hGD.1 171 (['1', 'd', '0', 'f'])
          (sliceOf payloadC7 14 171) hkv hdel171
        exact sliceOf_C7_171_ne heq.symm
    · exact hval
  have hbinsD : stD.bins = canonicalBinsUpTo payloadC7 14 192 :=
    bins_eq_canonicalUpTo payloadC7 14 stD.bins 192 hGD.1 hkeysD hvalD
  have hjoin : (stD.bins.map Prod.snd).flatten = payloadC7.take 2296 := by
    rw [hbinsD]
    unfold canonicalBinsUpTo
    rw [List.map_map]
    have hcomp : ((List.range 192).map
        (Prod.snd ∘ fun k => (k, sliceOf payloadC7 14 k))) =
        (List.range 192).map (sliceOf payloadC7 14) := rfl
    rw [hcomp, flatten_slices_upTo payloadC7 14 (by norm_num) 192 (by norm_num),
      wrapped_drop_eight,
      show (14 - numBinChars) * 192 - 8 = 2296 from by norm_num [numBinChars]]
    exact List.take_append_of_le_length (by rw [payloadC7_length]; norm_num)
  have hcrcfield : (payloadC7.take 2296).drop 2292 =
      ['z', 'z', Char.ofNat 224, Char.ofNat 248] := by
    have hdrop2292 : payloadC7.drop 2292 =
        ['z', 'z', Char.ofNat 224, Char.ofNat 248] ++
          ['f', 'f', 'e', 'e', '0', '5', 'a', 'b'] := by
      unfold payloadC7
      rw [List.drop_append_of_le_length (by simp),
        List.drop_append_of_le_length (by simp),
        (List.drop_eq_nil_of_le (le_of_eq (List.length_replicate 2292 'a')) :
          (List.replicate 2292 'a').drop 2292 = [])]
      rfl
    rw [List.drop_take, hdrop2292]
    rfl
  have hlen2296 : (payloadC7.take 2296).length = 2296 := by
    simp [List.length_take, payloadC7_length]
  have hfinD : finalize stD = none := by
    have hfe : finalize stD =
        (if ((stD.bins.map Prod.snd).flatten).drop
              (((stD.bins.map Prod.snd).flatten).length - 4) =
            toHexPad 4 (crc (((stD.bins.map Prod.snd).flatten).take
              (((stD.bins.map Prod.snd).flatten).length - 4)))
          then some (((stD.bins.map Prod.snd).flatten).take
            (((stD.bins.map Prod.snd).flatten).length - 4))
          else none) := rfl
    rw [hfe, hjoin, hlen2296, show (2296 : Nat) - 4 = 2292 from rfl, hcrcfield]
    rw [if_neg (toHexPad_ne_z_head _ _ _)]
  have hrunPerm : runLoop RecvState.init ([frameOf payloadC7 14 192] ++
      (List.range 192).map (frameOf payloadC7 14)) = some (stD, flagD) := by
    rw [List.singleton_append, runLoop_cons _ _ _ hcond0 _ hproc0, hd1cons,
      runLoop_cons _ _ _ hcondB _ hprocB]
    exact hrunD
  rw [receivePayload_eq_of_runLoop _ _ _ hrunPerm, hfinD]


/-! ## Plain-frame runs, and the claims of the specification -/

theorem processFrame_plain (st : RecvState) (f content : List Char) (idx : Nat)
    (hu : unpackPayloadBin f = some (content, idx, none)) :
    processFrame st f = some ⟨insertBin st.bins idx content, st.numExpected⟩ := by
  unfold processFrame
  rw [hu]

theorem unpack_no_marker (f : List Char)
    (hnm : specialFirstBinChars.isPrefixOf f = false) (content : List Char)
    (idx : Nat) (numBins : Option Nat)
    (hu : unpackPayloadBin f = some (content, idx, numBins)) : numBins = none := by
  unfold unpackPayloadBin at hu
  rw [hnm] at hu
  simp only [Bool.false_eq_true, if_false] at hu
  cases hp : hexParse? (f.take 2)
  · rw [hp] at hu
    exact absurd hu (by simp)
  · rw [hp] at hu
    simp only [Option.some.injEq, Prod.mk.injEq] at hu
    exact hu.2.2.symm

theorem noMarker_timeout (d : List (List Char))
    (hnm : ∀ f ∈ d, specialFirstBinChars.isPrefixOf f = false) :
    ∀ (st : RecvState) (n : Nat), st.numExpected = some n → n < st.bins.length →
      ∀ st' flag, runLoop st d = some (st', flag) →
        flag = false ∧ st'.numExpected = some n ∧ n < st'.bins.length := by
  induction d with
  | nil =>
    intro st n hexp hlt st' flag hrun
    have hc : loopCond st = true := by
      unfold loopCond
      rw [hexp]
      simp
      omega
    rw [runLoop_nil, hc] at hrun
    simp only [Bool.not_true, Option.some.injEq, Prod.mk.injEq] at hrun
    obtain ⟨h1, h2⟩ := hrun
    refine ⟨h2.symm, ?_, ?_⟩
    · rw [← h1]
      exact hexp
    · rw [← h1]
      exact hlt
  | cons f rest ih =>
    intro st n hexp hlt st' flag hrun
    have hc : loopCond st = true := by
      unfold loopCond
      rw [hexp]
      simp
      omega
    have hnmf := hnm f (List.mem_cons_self f rest)
    cases hu : unpackPayloadBin f with
    | none =>
      rw [runLoop_cons_none st f rest hc (by unfold processFrame; rw [hu])] at hrun
      exact absurd hrun (by simp)
    | some tr =>
      obtain ⟨content, idx, numBins⟩ := tr
      have hnb : numBins = none := unpack_no_marker f hnmf content idx numBins hu
      subst hnb
      have hpf := processFrame_plain st f content idx hu
      rw [runLoop_cons st f rest hc _ hpf] at hrun
      have hlen := length_insertBin_ge st.bins idx content
      exact ih (fun g hg => hnm g (List.mem_cons_of_mem f hg))
        ⟨insertBin st.bins idx content, st.numExpected⟩ n hexp
        (by show n < (insertBin st.bins idx content).length; omega) st' flag hrun

/- ================= claim theorems ================= -/

/-- C1: round trip at maxFrameSize 32 — for every payload of length 0, 1,
31, 32, 33 or 500, delivering the frames produced by `packPayload` to the
receive cycle (parse each frame, store each slice under its parsed index,
join in ascending index order, split off and validate the 4-hex checksum)
succeeds and returns exactly the original payload. -/
theorem claim_C1 (p : List Char)
    (hlen : p.length = 0 ∨ p.length = 1 ∨ p.length = 31 ∨ p.length = 32 ∨
      p.length = 33 ∨ p.length = 500) :
    receivePayload (packPayload p 32) = RecvOutcome.retPayload p :=
  receive_all_frames p (by omega) _ (List.Perm.refl _)

theorem claim_C1_witness :
    ((List.replicate 33 'x').length = 0 ∨ (List.replicate 33 'x').length = 1 ∨
      (List.replicate 33 'x').length = 31 ∨ (List.replicate 33 'x').length = 32 ∨
      (List.replicate 33 'x').length = 33 ∨ (List.replicate 33 'x').length = 500) ∧
    receivePayload (packPayload (List.replicate 33 'x') 32) =
      RecvOutcome.retPayload (List.replicate 33 'x') :=
  ⟨by norm_num, claim_C1 (List.replicate 33 'x') (by norm_num)⟩

/-- C2: concrete packing scenarios — `packPayload "A" 32` is the single
frame `marker ++ "01" ++ "00" ++ "A" ++ hex4 (crc "A")`, and every payload
of length 63 packs into exactly three frames with index fields `00`, `01`,
`02`, the count `03` embedded in frame 0, and the 4-hex checksum suffix
only at the end of frame 2. -/
theorem claim_C2 :
    (packPayload ['A'] 32 =
      [specialFirstBinChars ++ toHexPad 2 1 ++ toHexPad 2 0 ++ ['A'] ++
        toHexPad 4 (crc ['A'])]) ∧
    ∀ p : List Char, p.length = 63 →
      packPayload p 32 =
        [specialFirstBinChars ++ toHexPad 2 3 ++ toHexPad 2 0 ++ p.take 22,
         toHexPad 2 1 ++ (p.drop 22).take 30,
         toHexPad 2 2 ++ (p.drop 52 ++ toHexPad 4 (crc p))] := by
  constructor
  · decide
  · intro p hlen
    have hN : frameCount p 32 = 3 := by
      rw [frameCount_eq p 32 (by norm_num), hlen]
      norm_num [numBinChars]
    rw [packPayload_eq p 32 (by norm_num) (by rw [hN]; norm_num), hN]
    have h0 : frameOf p 32 0 =
        specialFirstBinChars ++ toHexPad 2 3 ++ toHexPad 2 0 ++ p.take 22 := by
      rw [frameOf, if_pos rfl, hN]
      congr 1
      rw [chunkAt_zero, List.drop_take, wrapped_drop_eight,
        List.take_append_of_le_length (by rw [hlen]; norm_num [numBinChars])]
      congr 1
    have h1 : frameOf p 32 1 = toHexPad 2 1 ++ (p.drop 22).take 30 := by
      rw [frameOf, if_neg one_ne_zero]
      congr 1
      unfold chunkAt
      rw [show (32 - numBinChars) * 1 = 30 from by norm_num [numBinChars],
        show (32 - numBinChars : Nat) = 30 from by norm_num [numBinChars],
        show (30 : Nat) = 8 + 22 from by norm_num]
      rw [← List.drop_drop, wrapped_drop_eight,
        List.drop_append_of_le_length (by rw [hlen]; norm_num)]
      exact List.take_append_of_le_length (by rw [List.length_drop, hlen]; norm_num)
    have h2 : frameOf p 32 2 =
        toHexPad 2 2 ++ (p.drop 52 ++ toHexPad 4 (crc p)) := by
      rw [frameOf, if_neg (by norm_num : ¬(2 = 0))]
      congr 1
      unfold chunkAt
      rw [show (32 - numBinChars) * 2 = 60 from by norm_num [numBinChars],
        show (32 - numBinChars : Nat) = 30 from by norm_num [numBinChars],
        show (60 : Nat) = 8 + 52 from by norm_num]
      rw [← List.drop_drop, wrapped_drop_eight,
        List.drop_append_of_le_length (by rw [hlen]; norm_num)]
      apply List.take_of_length_le
      rw [List.length_append, List.length_drop, hlen, crcHex_length]
      norm_num
    show [frameOf p 32 0, frameOf p 32 1, frameOf p 32 2] = _
    rw [h0, h1, h2]

theorem claim_C2_witness :
    (List.replicate 63 'b').length = 63 ∧
    packPayload (List.replicate 63 'b') 32 =
      [specialFirstBinChars ++ toHexPad 2 3 ++ toHexPad 2 0 ++
        (List.replicate 63 'b').take 22,
       toHexPad 2 1 ++ ((List.replicate 63 'b').drop 22).take 30,
       toHexPad 2 2 ++ ((List.replicate 63 'b').drop 52 ++
         toHexPad 4 (crc (List.replicate 63 'b')))] :=
  ⟨by norm_num, claim_C2.2 (List.replicate 63 'b') (by norm_num)⟩

/-- C3 counterexample: the frame parser does fail hard — on the empty
frame and on a frame whose index field holds non-hex characters,
`unpackPayloadBin` raises (`none`), and the raised `ValueError` escapes
the whole receive cycle. -/
theorem claim_C3_counterexample :
    unpackPayloadBin [] = none ∧
    unpackPayloadBin ['z', 'z', 'A', 'B'] = none ∧
    receivePayload [['z', 'z', 'A', 'B']] = RecvOutcome.raised := by decide

/-- C3 (amended): the parser does fail hard on some malformed inputs
(see the counterexample); in the other direction, whenever the
2-character fields it consumes are plain hexadecimal digit strings —
the count field at `[6:8]` and the index field at `[8:10]` on the
marker path, the index field at `[0:2]` otherwise; the domain on which
`hexParse?` succeeds and agrees with Python's `int(_, 16)` —
`unpackPayloadBin` returns a `(payloadSlice, frameIndex, frameCount)`
result without raising.  (No characterization is claimed for other
inputs, where Python's `int` additionally tolerates whitespace and
sign characters.) -/
theorem claim_C3 (binData : List Char)
    (h : if specialFirstBinChars.isPrefixOf binData then
        (hexParse? ((binData.drop 6).take 2)).isSome = true ∧
          (hexParse? ((binData.drop 8).take 2)).isSome = true
      else (hexParse? (binData.take 2)).isSome = true) :
    (unpackPayloadBin binData).isSome = true := by
  unfold unpackPayloadBin
  by_cases hp : specialFirstBinChars.isPrefixOf binData = true
  · rw [if_pos hp] at h
    obtain ⟨h1, h2⟩ := h
    obtain ⟨n1, hn1⟩ := Option.isSome_iff_exists.mp h1
    obtain ⟨n2, hn2⟩ := Option.isSome_iff_exists.mp h2
    simp only [hp, if_true]
    rw [hn1, hn2]
    rfl
  · rw [Bool.not_eq_true] at hp
    rw [if_neg (by simp [hp])] at h
    obtain ⟨n1, hn1⟩ := Option.isSome_iff_exists.mp h
    simp only [hp, Bool.false_eq_true, if_false]
    rw [hn1]
    rfl

theorem claim_C3_witness :
    (if specialFirstBinChars.isPrefixOf
        ['c', '0', 'f', 'f', 'e', 'e', '0', '1', '0', '2', 'X', 'Y'] then
      (hexParse? (((['c', '0', 'f', 'f', 'e', 'e', '0', '1', '0', '2', 'X', 'Y'] :
          List Char).drop 6).take 2)).isSome = true ∧
        (hexParse? (((['c', '0', 'f', 'f', 'e', 'e', '0', '1', '0', '2', 'X', 'Y'] :
          List Char).drop 8).take 2)).isSome = true
    else (hexParse? ((['c', '0', 'f', 'f', 'e', 'e', '0', '1', '0', '2', 'X', 'Y'] :
        List Char).take 2)).isSome = true) ∧
    (unpackPayloadBin ['c', '0', 'f', 'f', 'e', 'e', '0', '1', '0', '2', 'X', 'Y']).isSome
      = true :=
  ⟨by decide,
    claim_C3 ['c', '0', 'f', 'f', 'e', 'e', '0', '1', '0', '2', 'X', 'Y'] (by decide)⟩

/-- C4: frame-count overflow is not rejected — for the 7639-byte payload
at maxFrameSize 32 the wrapped data needs 256 chunks, the count field
renders as the 3-character `"100"`, and `packPayload` silently emits a
33-byte first frame whose count field reparses as 16, instead of raising
an explicit error. -/
theorem claim_C4 :
    ∃ rest,
      packPayload (List.replicate 7639 'a') 32 =
        (specialFirstBinChars ++ ['1', '0'] ++ ['0', '0'] ++
          ('0' :: List.replicate 22 'a')) :: rest ∧
      frameCount (List.replicate 7639 'a') 32 = 256 ∧
      toHexPad 2 (frameCount (List.replicate 7639 'a') 32) = ['1', '0', '0'] ∧
      (specialFirstBinChars ++ ['1', '0'] ++ ['0', '0'] ++
        ('0' :: List.replicate 22 'a')).length = 33 ∧
      unpackPayloadBin (specialFirstBinChars ++ ['1', '0'] ++ ['0', '0'] ++
          ('0' :: List.replicate 22 'a')) =
        some ('0' :: List.replicate 22 'a', 0, some 16) := by
  have hs : (32 - numBinChars : Nat) ≠ 0 := by norm_num [numBinChars]
  have hc := chunksOf_cons (32 - numBinChars) (wrapped (List.replicate 7639 'a')) hs
    (wrapped_ne_nil _)
  have hN : frameCount (List.replicate 7639 'a') 32 = 256 := by
    rw [frameCount_eq _ 32 (by norm_num), List.length_replicate]
    norm_num [numBinChars]
  have hrest : (chunksOf (32 - numBinChars)
      ((wrapped (List.replicate 7639 'a')).drop (32 - numBinChars))).length = 255 := by
    have h := hN
    unfold frameCount at h
    rw [hc, List.length_cons] at h
    omega
  have hc0take6 : ((wrapped (List.replicate 7639 'a')).take (32 - numBinChars)).take 6 =
      specialFirstBinChars := by
    rw [List.take_take]
    exact wrapped_take_six _
  have hc0drop8 : ((wrapped (List.replicate 7639 'a')).take (32 - numBinChars)).drop 8 =
      List.replicate 22 'a' := by
    rw [List.drop_take, wrapped_drop_eight,
      List.take_append_of_le_length
        (by rw [List.length_replicate]; norm_num [numBinChars]),
      List.take_replicate]
    rfl
  refine ⟨(chunksOf (32 - numBinChars)
      ((wrapped (List.replicate 7639 'a')).drop (32 - numBinChars))).mapIdx
        (fun i c => toHexPad 2 (i + 1) ++ c), ?_, hN, ?_, ?_, ?_⟩
  · rw [packPayload_of_chunks_cons _ 32 _ _ hc, List.cons.injEq]
    refine ⟨?_, rfl⟩
    rw [hrest, show (255 : Nat) + 1 = 256 from rfl,
      show toHexPad 2 256 = ['1', '0', '0'] from by decide, hc0take6, hc0drop8]
    have htake8 : (specialFirstBinChars ++ ['1', '0', '0'] ++
        List.replicate 22 'a').take 8 = specialFirstBinChars ++ ['1', '0'] := by
      rw [List.take_append_of_le_length (by simp [specialFirstBinChars])]
      decide
    have hdrop8 : (specialFirstBinChars ++ ['1', '0', '0'] ++
        List.replicate 22 'a').drop 8 = '0' :: List.replicate 22 'a' := by
      rw [List.drop_append_of_le_length (by simp [specialFirstBinChars])]
      rfl
    rw [htake8, hdrop8]
    rfl
  · rw [hN]
    decide
  · simp [specialFirstBinChars]
  · exact unpack_marker_frame ['1', '0'] ['0', '0'] ('0' :: List.replicate 22 'a') 16 0
      rfl rfl (by decide) (by decide)

/-- C5 counterexample: a timeout does surface a partial payload — for the
23-byte `payloadC5` the transfer is two frames, and when only the first
frame arrives before the timeout the receive cycle returns the strict
prefix `payloadC5.take 18` as if it were the recovered payload (the first
frame's slice happens to end in the checksum of its own first 18 bytes). -/
theorem claim_C5_counterexample :
    (packPayload payloadC5 32).length = 2 ∧
    receivePayload [(packPayload payloadC5 32).headI] =
      RecvOutcome.retPayload (payloadC5.take 18) ∧
    payloadC5.take 18 ≠ payloadC5 := by decide

/-- C5 (amended): when the frames that arrive before the timeout are a
proper subset of one transfer's frame set (at most 192 frames,
maxFrameSize 32), the receive cycle never returns the transfer's payload;
it can however return a shorter forged payload, so only the exact-payload
outcome is excluded. -/
theorem claim_C5 (p : List Char) (hlenp : p.length ≤ 5748) (d : List (List Char))
    (hsub : ∀ f ∈ d, f ∈ packPayload p 32)
    (hmiss : ∃ f, f ∈ packPayload p 32 ∧ f ∉ d) :
    receivePayload d ≠ RecvOutcome.retPayload p :=
  receive_missing_frame p hlenp d hsub hmiss

theorem claim_C5_witness :
    payloadC5.length ≤ 5748 ∧
    (∀ f ∈ [(packPayload payloadC5 32).headI], f ∈ packPayload payloadC5 32) ∧
    (['0', '1', '!', 'c', 'c', 'b', '2'] ∈ packPayload payloadC5 32 ∧
      ['0', '1', '!', 'c', 'c', 'b', '2'] ∉ [(packPayload payloadC5 32).headI]) ∧
    receivePayload [(packPayload payloadC5 32).headI] ≠
      RecvOutcome.retPayload payloadC5 :=
  ⟨by decide, by decide, by decide,
    claim_C5 payloadC5 (by decide) _ (by decide)
      ⟨['0', '1', '!', 'c', 'c', 'b', '2'], by decide, by decide⟩⟩

/-- C6 counterexample: the timeout failure and the corruption failure are
not distinguishable — an empty receive cycle (timeout with nothing
buffered) and a complete but corrupted transfer (the single frame of
payload "A" with its payload byte flipped to 'B') both return the same
indicator `None`. -/
theorem claim_C6_counterexample :
    receivePayload [] = RecvOutcome.retNone ∧
    receivePayload [['c', '0', 'f', 'f', 'e', 'e', '0', '1', '0', '0', 'B',
      '9', '4', '7', '9']] = RecvOutcome.retNone := by decide

/-- C6 (amended): every failure path returns `None`, which is
distinguishable from every success result — including a successfully
received empty payload, which is `retPayload []`, not `None`; but timeout
and corruption failures share the single indicator `None`. -/
theorem claim_C6 :
    (∀ s : List Char, RecvOutcome.retPayload s ≠ RecvOutcome.retNone) ∧
    receivePayload (packPayload [] 32) = RecvOutcome.retPayload [] := by
  constructor
  · intro s h
    exact RecvOutcome.noConfusion h
  · exact receive_all_frames [] (by norm_num) _ (List.Perm.refl _)

theorem claim_C6_witness :
    RecvOutcome.retPayload ['x'] ≠ RecvOutcome.retNone ∧
    receivePayload (packPayload [] 32) = RecvOutcome.retPayload [] :=
  ⟨claim_C6.1 ['x'], claim_C6.2⟩

/-- C7 counterexample: reassembly is not order independent — for the
2304-byte `payloadC7` at maxFrameSize 14 the transfer is 193 frames, and
frame 192 is the 14-byte string `c0ffee05ab1d0f`, which reparses as a
marker frame announcing 5 expected frames.  Delivered in order, the
receive cycle ends with `retPayload []`; delivered rotated by one (frame
192 first), it ends with `retNone`: a permutation changes the result. -/
theorem claim_C7_counterexample :
    ([frameOf payloadC7 14 192] ++ (List.range 192).map (frameOf payloadC7 14)).Perm
        (packPayload payloadC7 14) ∧
    receivePayload (packPayload payloadC7 14) = RecvOutcome.retPayload [] ∧
    receivePayload ([frameOf payloadC7 14 192] ++
        (List.range 192).map (frameOf payloadC7 14)) = RecvOutcome.retNone ∧
    RecvOutcome.retPayload ([] : List Char) ≠ RecvOutcome.retNone := by
  refine ⟨?_, receive_inorder_C7, receive_rotated_C7, by decide⟩
  rw [pack_C7]
  exact List.perm_append_comm

/-- C7 (amended): order independence holds for transfers of at most 192
frames at maxFrameSize 32 (payloads up to 5748 bytes) — every permutation
of the complete frame set reconstructs the same payload as in-order
delivery. -/
theorem claim_C7 (p : List Char) (hlen : p.length ≤ 5748)
    (d : List (List Char)) (hperm : d.Perm (packPayload p 32)) :
    receivePayload d = receivePayload (packPayload p 32) := by
  rw [receive_all_frames p hlen d hperm,
    receive_all_frames p hlen (packPayload p 32) (List.Perm.refl _)]

theorem claim_C7_witness :
    (['h', 'i'] : List Char).length ≤ 5748 ∧
    ((packPayload ['h', 'i'] 32).reverse).Perm (packPayload ['h', 'i'] 32) ∧
    receivePayload ((packPayload ['h', 'i'] 32).reverse) =
      receivePayload (packPayload ['h', 'i'] 32) :=
  ⟨by norm_num, List.reverse_perm _,
    claim_C7 ['h', 'i'] (by norm_num) _ (List.reverse_perm _)⟩

/-- C8 counterexample: the frame-size bound fails for small maximum frame
sizes — `packPayload "" 5` emits a 7-byte first frame, over the configured
maximum of 5. -/
theorem claim_C8_counterexample :
    ¬(∀ f ∈ packPayload [] 5, f.length ≤ 5) := by decide

/-- C8 (amended): for maximum frame sizes of at least 10 bytes and
transfers whose frame count fits the 2-hex count field, every frame
`packPayload` emits has length at most the configured maximum. -/
theorem claim_C8 (p : List Char) (m : Nat) (hm : 10 ≤ m)
    (hN : frameCount p m ≤ 255) :
    ∀ f ∈ packPayload p m, f.length ≤ m := by
  rw [packPayload_eq p m (by omega) hN]
  intro f hf
  rw [List.mem_map] at hf
  obtain ⟨k, hk, rfl⟩ := hf
  rw [List.mem_range] at hk
  have hchunk : (chunkAt p m k).length ≤ m - numBinChars := by
    unfold chunkAt
    rw [List.length_take]
    exact min_le_left _ _
  simp only [numBinChars] at hchunk
  by_cases hk0 : k = 0
  · subst hk0
    rw [frameOf, if_pos rfl]
    simp only [List.length_append, List.length_drop]
    have h1 : specialFirstBinChars.length = 6 := rfl
    have h2 := toHexPad_two_length (frameCount p m) (by omega)
    have h3 := toHexPad_two_length 0 (by norm_num)
    omega
  · rw [frameOf, if_neg hk0, List.length_append,
      toHexPad_two_length k (by omega)]
    omega

theorem claim_C8_witness :
    (10 ≤ 32 ∧ frameCount ['A'] 32 ≤ 255) ∧
    ∀ f ∈ packPayload ['A'] 32, f.length ≤ 32 :=
  ⟨⟨by norm_num, by decide⟩, claim_C8 ['A'] 32 (by norm_num) (by decide)⟩

/-- C9: a receive cycle that times out with an empty buffer returns the
failure indicator — joining the empty buffer yields the empty string,
whose extracted checksum field is empty while the recomputed checksum is
the 4-hex rendering of `crc "" = 0x1D0F` (the nonzero preset), so the
comparison fails and `receivePayload` returns `None`. -/
theorem claim_C9 :
    finalize RecvState.init = none ∧
    crc [] = 0x1D0F ∧
    toHexPad 4 (crc []) = ['1', 'd', '0', 'f'] ∧
    receivePayload [] = RecvOutcome.retNone := by decide

/-- C10 counterexample: after the buffer becomes overfull (a newly learned
count equal to the buffer size followed by a fresh index), completion can
still occur — a later marker frame with a smaller count resets the buffer,
after which the completion condition holds and the cycle exits complete
rather than running until the timeout. -/
theorem claim_C10_counterexample :
    runLoop RecvState.init
        [['0', '1', 'A', 'B'],
         ['c', '0', 'f', 'f', 'e', 'e', '0', '1', '0', '0', 'X', 'Y']] =
      some (⟨[(0, ['X', 'Y']), (1, ['A', 'B'])], some 1⟩, false) ∧
    runLoop RecvState.init
        [['0', '1', 'A', 'B'],
         ['c', '0', 'f', 'f', 'e', 'e', '0', '1', '0', '0', 'X', 'Y'],
         ['c', '0', 'f', 'f', 'e', 'e', '0', '1', '0', '5', 'Z', 'W']] =
      some (⟨[(5, ['Z', 'W'])], some 1⟩, true) := by decide

/-- C10 (amended): the reset clears the buffer iff the newly learned count
is strictly below the number of buffered entries; and once the buffer is
overfull (expected count strictly below the buffer size), as long as no
further marker frame arrives the completion condition never holds and the
cycle runs until the timeout. -/
theorem claim_C10 :
    (∀ (st : RecvState) (f content : List Char) (idx n : Nat),
        unpackPayloadBin f = some (content, idx, some n) →
        processFrame st f =
          some ⟨insertBin (if n < st.bins.length then [] else st.bins) idx content,
            some n⟩) ∧
    (∀ (d : List (List Char)),
        (∀ f ∈ d, specialFirstBinChars.isPrefixOf f = false) →
        ∀ (st : RecvState) (n : Nat), st.numExpected = some n →
          n < st.bins.length →
          ∀ st' flag, runLoop st d = some (st', flag) → flag = false) := by
  constructor
  · intro st f content idx n hu
    unfold processFrame
    rw [hu]
  · intro d hnm st n hexp hlt st' flag hrun
    exact (noMarker_timeout d hnm st n hexp hlt st' flag hrun).1

theorem claim_C10_witness :
    processFrame (⟨[(0, ['X', 'Y']), (1, ['A', 'B'])], some 1⟩ : RecvState)
        ['c', '0', 'f', 'f', 'e', 'e', '0', '1', '0', '5', 'Z', 'W'] =
      some ⟨insertBin
        (if 1 < (⟨[(0, ['X', 'Y']), (1, ['A', 'B'])], some 1⟩ : RecvState).bins.length
          then []
          else (⟨[(0, ['X', 'Y']), (1, ['A', 'B'])], some 1⟩ : RecvState).bins)
        5 ['Z', 'W'], some 1⟩ ∧
    (false = false) :=
  ⟨claim_C10.1 (⟨[(0, ['X', 'Y']), (1, ['A', 'B'])], some 1⟩ : RecvState)
      ['c', '0', 'f', 'f', 'e', 'e', '0', '1', '0', '5', 'Z', 'W'] ['Z', 'W'] 5 1
      (by decide),
    claim_C10.2 [['0', '7', 'Q', 'R']] (by decide)
      (⟨[(0, ['X', 'Y']), (1, ['A', 'B'])], some 1⟩ : RecvState) 1 rfl (by decide)
      (⟨[(0, ['X', 'Y']), (1, ['A', 'B']), (7, ['Q', 'R'])], some 1⟩ : RecvState) false
      (by decide)⟩


end EasyStream
